import Mathlib

/-!
Verification of the graph-rag-example repository's retrieval and
visualization logic, shallowly embedded in Lean 4.

Source files embedded here:
- `src/utils.py` / `src/search_executor.py` (`format_docs`)
- `src/utility.py` / `src/langchain_utils.py` (`find_and_log_links`)
- `src/util/visualization.py` (`_split_prefix`, `generate_links_table`,
  `visualize_graph_text`)
- `src/search_executor.py` (`ChainManager.setup_chains`,
  `get_similarity_result`, `get_mmr_result`)
- the MMR graph-traversal selector, which the repository only invokes by
  name through the external vector-store library; it is modelled from the
  spec (see the `MMR` model definitions below).

Python documents are embedded as records carrying a `source` metadata
string, a list of typed links, and their text content.  Link kinds,
directions and tags are strings, exactly as in the Python `Link` dataclass
used by the repository ("in" / "out" / "bidir" direction literals).
-/

/-- A typed, directional link attached to a document
(langchain `Link`: kind, direction, tag, all strings). -/
structure Link where
  kind : String
  direction : String
  tag : String
deriving DecidableEq, Repr

/-- A document as the repository uses it: `metadata["source"]`,
`metadata["links"]`, and `page_content`. -/
structure Doc where
  source : String
  links : List Link
  page_content : String
deriving DecidableEq, Repr

/-- `format_docs` from `src/utils.py` and
`ChainManager.format_docs` in `src/search_executor.py`:
`"\n\n".join(doc.page_content for doc in docs)`. -/
def format_docs (docs : List Doc) : String :=
  String.intercalate "\n\n" (docs.map (·.page_content))

/-- The `links_table` accumulated by `find_and_log_links`
(`src/utility.py` lines 16-40 and `src/langchain_utils.py` lines 10-37):
for every document `doc_to` and every link `link_to` of it with direction
`"in"`, it scans every document `doc_from` and every link `link_from`,
appending `[doc_from.source, doc_to.source]` whenever `link_to.direction
== "in" and link_from.direction == "out" and link_to.tag ==
link_from.tag`.  The Python function logs this table and returns `None`;
the table itself is its observable output, embedded here. -/
def find_and_log_links (documents : List Doc) : List (String × String) :=
  documents.flatMap (fun doc_to =>
    doc_to.links.flatMap (fun link_to =>
      if link_to.direction = "in" then
        documents.flatMap (fun doc_from =>
          doc_from.links.filterMap (fun link_from =>
            if link_to.direction = "in" ∧ link_from.direction = "out" ∧
                link_to.tag = link_from.tag
            then some (doc_from.source, doc_to.source)
            else none))
      else []))

/-- The spec's notion of graph adjacency (§3 Data Model), written from the
spec's words for comparison with `find_and_log_links`: `doc_from` and
`doc_to` are adjacent with `doc_from` on the out side iff `doc_from` has
an `out` (or `bidir`) link and `doc_to` an `in` (or `bidir`) link with the
same (kind, tag) pair. -/
def SpecAdjacentOut (doc_from doc_to : Doc) : Prop :=
  ∃ lf ∈ doc_from.links, ∃ lt ∈ doc_to.links,
    (lf.direction = "out" ∨ lf.direction = "bidir") ∧
    (lt.direction = "in" ∨ lt.direction = "bidir") ∧
    lf.kind = lt.kind ∧ lf.tag = lt.tag

instance (doc_from doc_to : Doc) : Decidable (SpecAdjacentOut doc_from doc_to) := by
  unfold SpecAdjacentOut
  infer_instance

/-- All `(source, tag, direction)` triples collected by the first loop of
`generate_links_table` (`src/util/visualization.py` lines 173-202). -/
def collectTriples (documents : List Doc) : List (String × String × String) :=
  documents.flatMap (fun doc =>
    doc.links.map (fun link => (doc.source, link.tag, link.direction)))

/-- `generate_links_table` from `src/util/visualization.py`: collects the
distinct `(source, tag, direction)` triples into the set `all_links`
(embedded as `List.dedup`; Python set iteration order is unspecified, and
no claim here depends on the order of the returned list), then emits
`(source, tag)` for `bidir`/`out` triples matching the `direction`
argument and `(tag, source)` for `in` triples. -/
def generate_links_table (documents : List Doc) (direction : String) :
    List (String × String) :=
  (collectTriples documents).dedup.filterMap (fun t =>
    let source := t.1
    let tag := t.2.1
    let link_direction := t.2.2
    if direction = "bidir" ∧ link_direction = "bidir" then some (source, tag)
    else if direction = "out" ∧ link_direction = "out" then some (source, tag)
    else if direction = "in" ∧ link_direction = "in" then some (tag, source)
    else none)

/-- Whitespace test used by the regex `\s` class in `_WORD_RE`. -/
def isWS (c : Char) : Bool := c.isWhitespace

/-- End offsets of the matches of `_WORD_RE = \s*\S+` over `s`, in the
order `finditer` yields them: each match ends at the end of a maximal
non-whitespace run, so `i + 1` is a match end iff `s[i]` is
non-whitespace and either the string ends at `i + 1` or `s[i+1]` is
whitespace. -/
def wordEnds (s : List Char) : List Nat :=
  (List.range s.length).filterMap (fun i =>
    if ¬ isWS (s.getD i ' ') ∧ (i + 1 = s.length ∨ isWS (s.getD (i + 1) ' '))
    then some (i + 1) else none)

/-- The `for word in words: if word.end(0) > max_chars: break;
split = word.end(0)` loop of `_split_prefix`. -/
def splitLoop (ends : List Nat) (max_chars split : Nat) : Nat :=
  match ends with
  | [] => split
  | e :: rest => if e > max_chars then split else splitLoop rest max_chars e

/-- `_split_prefix` from `src/util/visualization.py` lines 50-72, over the
string's characters: `split` starts at `min(len(s), max_chars)`, is moved
to the end of each word that still ends within `max_chars`, and the
string is returned whole when `split == len(s)` and truncated with
`"..."` appended otherwise. -/
def splitPfx (s : List Char) (max_chars : Nat) : List Char :=
  let split := splitLoop (wordEnds s) max_chars (min s.length max_chars)
  if split = s.length then s else s.take split ++ ['.', '.', '.']

/-- State of the `nodes` dictionary in `visualize_graph_text`
(`src/util/visualization.py` lines 205-255): the node names in insertion
order, and the current anytree parent assignment as an association list
from child name to parent name (absent key = root). -/
structure VGState where
  names : List String
  parent : List (String × String)
deriving Repr, DecidableEq

/-- The ancestor path of `x` under parent assignment `p`, starting at `x`
itself, as anytree's `iter_path_reverse` walks it; `fuel` bounds the walk
(on every acyclic state a bound of the number of known names suffices, so
the walk ends at the root before the fuel runs out). -/
def chainAux (p : List (String × String)) : Nat → String → List String
  | 0, x => [x]
  | fuel + 1, x =>
    match p.lookup x with
    | none => [x]
    | some y => x :: chainAux p fuel y

/-- Reassigning a node's parent in anytree detaches it from its old
parent: the association list drops any old entry for `child` and records
the new one. -/
def setParent (p : List (String × String)) (child par : String) :
    List (String × String) :=
  (child, par) :: p.filter (fun q => ¬ (q.1 = child))

/-- `if doc_from not in nodes: nodes[doc_from] = Node(doc_from)` —
dictionary insertion preserves first-insertion order. -/
def vgAddName (st : VGState) (n : String) : VGState :=
  if n ∈ st.names then st else { st with names := st.names ++ [n] }

/-- One iteration of the parent-assignment loop of `visualize_graph_text`:
ensure both names exist, then execute `nodes[doc_to].parent =
nodes[doc_from]` unless anytree raises `LoopError`, which it does exactly
when `doc_to` lies on the ancestor path of `doc_from` (including
`doc_from` itself); the `except LoopError` branch skips the assignment. -/
def vgStep (st : VGState) (link : String × String) : VGState :=
  let doc_from := link.1
  let doc_to := link.2
  let st' := vgAddName (vgAddName st doc_from) doc_to
  if doc_to ∈ chainAux st'.parent st'.names.length doc_from then st'
  else { st' with parent := setParent st'.parent doc_to doc_from }

/-- The parent-assignment loop of `visualize_graph_text` over a links
table, from the initially empty `nodes` dictionary. -/
def vgRun (links_table : List (String × String)) : VGState :=
  links_table.foldl vgStep { names := [], parent := [] }

/-- The children of `x`: the known names whose parent is `x` (anytree
orders children by attach time; this model lists them in name-insertion
order, which affects only the order in which a tree's nodes are rendered,
not which names appear or how often). -/
def childrenOf (st : VGState) (x : String) : List String :=
  st.names.filter (fun n => st.parent.lookup n == some x)

/-- Preorder traversal of the tree rooted at `x`, as `RenderTree` visits
it; `fuel` bounds the recursion depth (the number of known names plus one
suffices on every acyclic state). -/
def preorder (st : VGState) : Nat → String → List String
  | 0, _ => []
  | fuel + 1, x => x :: (childrenOf st x).flatMap (preorder st fuel)

/-- `root_nodes = [node for node in nodes.values() if node.is_root]`. -/
def vgRoots (st : VGState) : List String :=
  st.names.filter (fun n => (st.parent.lookup n).isNone)

/-- The sequence of node names rendered by `visualize_graph_text`: each
root's tree in preorder (`for pre, _, node in RenderTree(root_node)`),
concatenated over all roots in order. -/
def vgRender (st : VGState) : List String :=
  (vgRoots st).flatMap (preorder st (st.names.length + 1))

/-- A retriever configuration as recorded by `store.as_retriever` in
`src/search_executor.py`: the `search_type` string and the
`search_kwargs` entries the source passes (`fetch_k` is commented out in
the source, hence optional and never set). -/
structure RetrieverConfig where
  search_type : String
  k : Int
  depth : Int
  lambda_mult : Option ℚ
  fetch_k : Option Int
deriving Repr, DecidableEq

/-- The two retrievers `ChainManager.setup_chains` configures. -/
structure ChainConfig where
  similarity_retriever : RetrieverConfig
  mmr_retriever : RetrieverConfig
deriving Repr, DecidableEq

/-- `ChainManager.setup_chains` (`src/search_executor.py` lines 52-77):
builds the similarity and mmr retriever configurations passed to
`store.as_retriever`.  The Python default arguments `k=10, depth=3,
lambda_mult=0.25` are embedded as Lean default arguments; the similarity
retriever is always configured with `depth = 0`.  The body performs no
parameter validation and contacts no collaborator: it only records the
configuration. -/
def setup_chains (k : Int := 10) (depth : Int := 3)
    (lambda_mult : ℚ := 1 / 4) : ChainConfig :=
  { similarity_retriever :=
      { search_type := "similarity", k := k, depth := 0,
        lambda_mult := none, fetch_k := none }
    mmr_retriever :=
      { search_type := "mmr_traversal", k := k, depth := depth,
        lambda_mult := some lambda_mult, fetch_k := none } }

/-- The value returned by a chain invocation in `src/search_executor.py`:
the fields `content` and `usage_metadata` that `get_similarity_result`
and `get_mmr_result` read. -/
structure ChatResult where
  content : String
  usage_metadata : String
deriving Repr, DecidableEq

/-- `get_similarity_result` (`src/search_executor.py` lines 90-104):
invokes the similarity chain and returns `(content, usage_metadata)`.
The chain invocation — the step that reaches the external similarity
index — is the `invoked` argument: either a completed result or a raised
error of any type `E`.  The body contains no try/except, so an error
outcome passes through unchanged. -/
def get_similarity_result {E : Type} (invoked : Except E ChatResult) :
    Except E (String × String) := do
  let invoked_chain ← invoked
  return (invoked_chain.content, invoked_chain.usage_metadata)

/-- `get_mmr_result` (`src/search_executor.py` lines 105-121): invokes
the mmr chain — which reaches the external similarity index and link
graph — and returns `(content, usage_metadata)`; no try/except, so an
error outcome passes through unchanged. -/
def get_mmr_result {E : Type} (invoked : Except E ChatResult) :
    Except E (String × String) := do
  let invoked_chain ← invoked
  return (invoked_chain.content, invoked_chain.usage_metadata)

/-- Modelled from the spec: a frontier candidate during MMR traversal —
node id, query-similarity score, and traversal depth (§3
SelectionState).  The selector itself is never defined in this
repository: `src/search_executor.py` only names it through
`search_type="mmr_traversal"`, so the whole `MMR` model below follows
§4.1-§4.3 and §7 of the spec.  Node identifiers are modelled as
naturals, ordered as the spec's "smallest node identifier" tie-break;
scores are rationals. -/
structure Cand where
  id : Nat
  sim : ℚ
  depth : Nat
deriving DecidableEq, Repr

/-- Modelled from the spec: the capabilities the Selector consumes — the
Similarity Index (§4.1: `query fetch_k` returns scored seed nodes) and
the Link Graph (§4.2: `neighbors`), plus `simToQuery` for lazily scoring
traversal-discovered candidates and `simBetween` for the diversity term
(§4.3 steps 2a and 2d). -/
structure MMRCaps where
  query : Nat → List (Nat × ℚ)
  simToQuery : Nat → ℚ
  simBetween : Nat → Nat → ℚ

  neighbors : Nat → List Nat

/-- Modelled from the spec: the Selector's tunable parameters (§4.3
inputs). -/
structure MMRParams where
  k : Int
  depth : Int
  lambda_mult : ℚ
  fetch_k : Int
deriving Repr, DecidableEq

/-- Modelled from the spec: the ephemeral SelectionState (§3) — selected
ids in selection order, the frontier of discovered-but-unselected
candidates, and the distinct ids ever admitted to the frontier (the
count §4.3 step 2e compares against `fetch_k`). -/
structure SelState where
  selected : List Nat
  frontier : List Cand
  discovered : List Nat
deriving Repr, DecidableEq

/-- Modelled from the spec: `max_over_selected(similarity(c, s))` over
the already-selected nodes, zero when nothing is selected yet (§4.3 step
2a). -/
def maxSimToSelected (caps : MMRCaps) (selected : List Nat) (c : Nat) : ℚ :=
  match selected.map (fun s => caps.simBetween c s) with
  | [] => 0
  | x :: xs => xs.foldl max x

/-- Modelled from the spec: the combined MMR score of a frontier
candidate, `lambda_mult * similarity(c, query) - (1 - lambda_mult) *
max_over_selected(similarity(c, s))` (§4.3 step 2a). -/
def combinedScore (caps : MMRCaps) (lam : ℚ) (selected : List Nat)
    (c : Cand) : ℚ :=
  lam * c.sim - (1 - lam) * maxSimToSelected caps selected c.id

/-- Modelled from the spec: §4.3 step 2b tie-break — is `c₁` strictly
preferred to `c₂`?  Higher combined score, then higher raw
query-similarity, then smaller node identifier. -/
def betterCand (caps : MMRCaps) (lam : ℚ) (selected : List Nat)
    (c₁ c₂ : Cand) : Bool :=
  let s₁ := combinedScore caps lam selected c₁
  let s₂ := combinedScore caps lam selected c₂
  if s₂ < s₁ then true
  else if s₁ < s₂ then false
  else if c₂.sim < c₁.sim then true
  else if c₁.sim < c₂.sim then false
  else c₁.id < c₂.id

/-- Modelled from the spec: select the best frontier candidate (§4.3
step 2b), scanning the frontier and keeping the preferred one. -/
def pickBest (caps : MMRCaps) (lam : ℚ) (selected : List Nat) :
    Cand → List Cand → Cand
  | c, [] => c
  | c, d :: rest =>
    if betterCand caps lam selected d c then pickBest caps lam selected d rest
    else pickBest caps lam selected c rest

/-- Modelled from the spec: §4.3 steps 2d-2e — for the newly selected
node, admit each neighbor that is not already selected and not already
in the frontier, whose depth (selected node's depth + 1) is within the
bound, as long as fewer than `fetch_k` distinct candidates have ever
been admitted; a traversal-discovered candidate is scored against the
query lazily via `simToQuery`. -/
def expand (caps : MMRCaps) (p : MMRParams) (chosen : Cand)
    (st : SelState) : SelState :=
  (caps.neighbors chosen.id).foldl (fun st nb =>
    if st.discovered.length < p.fetch_k.toNat ∧ nb ∉ st.selected ∧
        nb ∉ st.frontier.map Cand.id ∧ (chosen.depth + 1 : Int) ≤ p.depth then
      { st with
        frontier := st.frontier ++ [⟨nb, caps.simToQuery nb, chosen.depth + 1⟩],
        discovered := st.discovered ++ [nb] }
    else st) st

/-- Modelled from the spec: §4.3 step 2 — repeat until `k` nodes are
selected or the frontier is empty; `fuel` is the number of selections
still allowed (`k` minus the selections made so far). -/
def selectLoopMMR (caps : MMRCaps) (p : MMRParams) :
    Nat → SelState → SelState
  | 0, st => st
  | fuel + 1, st =>
    match st.frontier with
    | [] => st
    | c :: rest =>
      let chosen := pickBest caps p.lambda_mult st.selected c rest
      let st' : SelState :=
        { selected := st.selected ++ [chosen.id],
          frontier := st.frontier.filter (fun d => ¬ (d.id = chosen.id)),
          discovered := st.discovered }
      selectLoopMMR caps p fuel (expand caps p chosen st')

/-- Modelled from the spec: §4.3 step 1 — seed the frontier from the
Similarity Index at depth 0.  §4.1 guarantees at most `fetch_k` distinct
results; `take` and per-id deduplication make the model total over
arbitrary capability functions without changing its behavior on
contract-obeying ones. -/
def seedFrontier (seeds : List (Nat × ℚ)) : List Cand :=
  seeds.foldl (fun acc s =>
    if s.1 ∈ acc.map Cand.id then acc else acc ++ [⟨s.1, s.2, 0⟩]) []

/-- Modelled from the spec: the initial SelectionState (§4.3 step 1). -/
def initState (caps : MMRCaps) (p : MMRParams) : SelState :=
  let frontier := seedFrontier ((caps.query p.fetch_k.toNat).take p.fetch_k.toNat)
  { selected := [], frontier := frontier, discovered := frontier.map Cand.id }

/-- Modelled from the spec: the complete traversal run — seed, then loop
with a selection budget of `k` (§4.3 steps 1-3). -/
def runMMR (caps : MMRCaps) (p : MMRParams) : SelState :=
  selectLoopMMR caps p p.k.toNat (initState caps p)

/-- Modelled from the spec: the Selector's error kinds that the core
itself raises (§7); collaborator errors are not wrapped and so never
appear here. -/
inductive SelError where
  | invalidParameter
deriving DecidableEq, Repr

/-- Modelled from the spec: the Selector entry point (§4.3, §6, §7) —
`InvalidParameter` (`k ≤ 0`, `lambda_mult` outside [0,1], `fetch_k ≤ 0`,
`depth < 0`) is validated eagerly, before any collaborator call; on
valid parameters the greedy MMR traversal runs and the selected ids are
returned in selection order. -/
def select (caps : MMRCaps) (p : MMRParams) : Except SelError (List Nat) :=
  if p.k ≤ 0 ∨ p.lambda_mult < 0 ∨ 1 < p.lambda_mult ∨ p.fetch_k ≤ 0 ∨
      p.depth < 0 then
    .error .invalidParameter
  else
    .ok (runMMR caps p).selected

/-- The SelectionState invariants of §3 that the traversal maintains:
the admitted count splits into selected plus frontier, no node id occurs
twice in the frontier, and the frontier never contains an
already-selected node. -/
def SelInv (st : SelState) : Prop :=
  st.discovered.length = st.selected.length + st.frontier.length ∧
  (st.frontier.map Cand.id).Nodup ∧
  ∀ c ∈ st.frontier, c.id ∉ st.selected

/-- The rooted-forest invariant that `visualize_graph_text`'s node
dictionary maintains: known names are distinct, parent entries connect
known names, and from every known name the parent walk (with the name
count as fuel) visits distinct known names and ends at a parentless
root. -/
def VGInv (st : VGState) : Prop :=
  st.names.Nodup ∧
  (∀ q ∈ st.parent, q.1 ∈ st.names ∧ q.2 ∈ st.names) ∧
  ∀ x ∈ st.names,
    (chainAux st.parent st.names.length x).Nodup ∧
    (∀ y ∈ chainAux st.parent st.names.length x, y ∈ st.names) ∧
    st.parent.lookup ((chainAux st.parent st.names.length x).getLastD x) = none

theorem intercalate_go_append (s : String) (l : List String) (a b : String) :
    String.intercalate.go (a ++ b) s l = a ++ String.intercalate.go b s l := by
  induction l generalizing b with
  | nil => rfl
  | cons c cs ih =>
    show String.intercalate.go ((a ++ b) ++ s ++ c) s cs = _
    rw [String.append_assoc a b s, String.append_assoc a (b ++ s) c, ih]
    rfl

/-- C4: `format_docs` returns the documents' text contents concatenated
in input (selection) order with each adjacent pair separated by exactly
one blank line `"\n\n"`, and returns the empty string for the empty
list.  It is a total Lean function on every list of documents whose text
content is a string, so it never fails on such input. -/
theorem format_docs_spec :
    format_docs [] = "" ∧
    (∀ d : Doc, format_docs [d] = d.page_content) ∧
    ∀ (d : Doc) (ds : List Doc), ds ≠ [] →
      format_docs (d :: ds) = d.page_content ++ "\n\n" ++ format_docs ds := by
  refine ⟨rfl, fun d => rfl, fun d ds hne => ?_⟩
  match ds with
  | [] => exact absurd rfl hne
  | e :: es =>
    have h : format_docs (d :: e :: es) =
        String.intercalate.go ((d.page_content ++ "\n\n") ++ e.page_content)
          "\n\n" (es.map (·.page_content)) := rfl
    rw [h, intercalate_go_append]
    rfl

theorem format_docs_spec_witness :
    ([(⟨"s2", [], "beta"⟩ : Doc)] ≠ []) ∧
    format_docs [⟨"s1", [], "alpha"⟩, ⟨"s2", [], "beta"⟩] =
      (⟨"s1", [], "alpha"⟩ : Doc).page_content ++ "\n\n" ++
        format_docs [⟨"s2", [], "beta"⟩] :=
  ⟨by decide, format_docs_spec.2.2 ⟨"s1", [], "alpha"⟩ [⟨"s2", [], "beta"⟩]
    (by decide)⟩

/-- C6: every error raised while invoking a chain — the step that reaches
the Similarity Index / Link Graph collaborators — propagates unchanged
through `get_similarity_result` and `get_mmr_result`
(`src/search_executor.py` lines 90-121): there is no retry, no recovery
and no wrapping; a successful invocation is passed on as
`(content, usage_metadata)`. -/
theorem collaborator_errors_propagate :
    ∀ (E : Type) (e : E),
      get_similarity_result (Except.error e) = Except.error e ∧
      get_mmr_result (Except.error e) = Except.error e ∧
      ∀ r : ChatResult,
        get_similarity_result (Except.ok r : Except E ChatResult) =
          Except.ok (r.content, r.usage_metadata) ∧
        get_mmr_result (Except.ok r : Except E ChatResult) =
          Except.ok (r.content, r.usage_metadata) :=
  fun _ _ => ⟨rfl, rfl, fun _ => ⟨rfl, rfl⟩⟩

/-- C7: calling `setup_chains` without explicit arguments uses the Python
default values `k = 10`, `depth = 3`, `lambda_mult = 0.25`; `fetch_k` is
left unspecified (`none`) — it is commented out in the source.  The
similarity retriever always uses `depth = 0`. -/
theorem setup_chains_defaults :
    setup_chains = ⟨⟨"similarity", 10, 0, none, none⟩,
      ⟨"mmr_traversal", 10, 3, some (1 / 4 : ℚ), none⟩⟩ := rfl

/-- C5 (spec-modelled): the Selector validates its parameters eagerly
(§7): whenever `k ≤ 0` or `lambda_mult` lies outside [0, 1], `select`
returns `InvalidParameter`, and it does so for every choice of
Similarity Index / Link Graph capabilities — the outcome does not depend
on the collaborators, so no collaborator call happens first. -/
theorem select_validates_eagerly (p : MMRParams)
    (h : p.k ≤ 0 ∨ p.lambda_mult < 0 ∨ 1 < p.lambda_mult) :
    ∀ caps : MMRCaps, select caps p = Except.error SelError.invalidParameter := by
  intro caps
  unfold select
  have hcond : p.k ≤ 0 ∨ p.lambda_mult < 0 ∨ 1 < p.lambda_mult ∨
      p.fetch_k ≤ 0 ∨ p.depth < 0 := by tauto
  rw [if_pos hcond]

theorem select_validates_eagerly_witness :
    ((⟨-1, 3, 1 / 4, 50⟩ : MMRParams).k ≤ 0 ∨
      (⟨-1, 3, 1 / 4, 50⟩ : MMRParams).lambda_mult < 0 ∨
      1 < (⟨-1, 3, 1 / 4, 50⟩ : MMRParams).lambda_mult) ∧
    select ⟨fun _ => [], fun _ => 0, fun _ _ => 0, fun _ => []⟩
        ⟨-1, 3, 1 / 4, 50⟩ = Except.error SelError.invalidParameter :=
  ⟨Or.inl (by decide),
    select_validates_eagerly ⟨-1, 3, 1 / 4, 50⟩ (Or.inl (by decide)) _⟩

/-- C3 counterexample: `find_and_log_links` does not record exactly the
spec-adjacent pairs.  First input: the two documents have an out / in
link pair with equal tags but different kinds (`hyperlink` vs
`keyword`), so they are not graph-adjacent under the spec's (kind, tag)
matching, yet the pair is recorded.  Second input: a `bidir` out-side
link is spec-adjacent to an `in` link, yet the pair is not recorded —
the code only ever matches literal `"out"` against literal `"in"`. -/
theorem find_and_log_links_not_adjacency :
    (("a", "b") ∈ find_and_log_links
        [⟨"a", [⟨"hyperlink", "out", "t"⟩], ""⟩,
         ⟨"b", [⟨"keyword", "in", "t"⟩], ""⟩] ∧
      ¬ SpecAdjacentOut ⟨"a", [⟨"hyperlink", "out", "t"⟩], ""⟩
          ⟨"b", [⟨"keyword", "in", "t"⟩], ""⟩) ∧
    (SpecAdjacentOut ⟨"c", [⟨"k", "bidir", "u"⟩], ""⟩
        ⟨"d", [⟨"k", "in", "u"⟩], ""⟩ ∧
      ("c", "d") ∉ find_and_log_links
        [⟨"c", [⟨"k", "bidir", "u"⟩], ""⟩, ⟨"d", [⟨"k", "in", "u"⟩], ""⟩]) := by
  decide

/-- C3 (amended): `find_and_log_links` records the ordered pair
`(doc_from.source, doc_to.source)` if and only if `doc_to` carries a
link with direction `"in"` and `doc_from` carries a link with direction
`"out"` whose tag values are equal; the links' kinds are not compared,
and `bidir` links never participate in the match. -/
theorem find_and_log_links_mem (documents : List Doc) (a b : String) :
    (a, b) ∈ find_and_log_links documents ↔
      ∃ doc_from ∈ documents, ∃ doc_to ∈ documents,
        doc_from.source = a ∧ doc_to.source = b ∧
        ∃ lf ∈ doc_from.links, ∃ lt ∈ doc_to.links,
          lt.direction = "in" ∧ lf.direction = "out" ∧ lt.tag = lf.tag := by
  unfold find_and_log_links
  simp only [List.mem_flatMap, List.mem_filterMap]
  constructor
  · rintro ⟨dto, hdto, lto, hlto, hmem⟩
    rw [apply_ite (fun l => (a, b) ∈ l)] at hmem
    by_cases hdir : lto.direction = "in"
    · rw [if_pos hdir] at hmem
      simp only [List.mem_flatMap, List.mem_filterMap] at hmem
      obtain ⟨dfrom, hdfrom, lfrom, hlfrom, heq⟩ := hmem
      split at heq
      · next hcond =>
        obtain ⟨h1, h2, h3⟩ := hcond
        cases heq
        exact ⟨dfrom, hdfrom, dto, hdto, rfl, rfl, lfrom, hlfrom, lto, hlto,
          h1, h2, h3⟩
      · exact absurd heq (by simp)
    · rw [if_neg hdir] at hmem
      simp at hmem
  · rintro ⟨dfrom, hdfrom, dto, hdto, ha, hb, lf, hlf, lt, hlt, h1, h2, h3⟩
    refine ⟨dto, hdto, lt, hlt, ?_⟩
    rw [if_pos h1]
    simp only [List.mem_flatMap, List.mem_filterMap]
    exact ⟨dfrom, hdfrom, lf, hlf, by rw [if_pos ⟨h1, h2, h3⟩, ha, hb]⟩

/-- C9 counterexample: the claim quantifies over every direction
argument, but for an argument outside `"bidir"`/`"out"`/`"in"` the
function emits nothing even when a link's direction equals the argument:
with one document carrying a link of direction `"weird"` and the
argument `"weird"`, the triple is collected yet the table is empty. -/
theorem generate_links_table_unknown_direction :
    ("e", "w", "weird") ∈ collectTriples [⟨"e", [⟨"k", "weird", "w"⟩], ""⟩] ∧
    generate_links_table [⟨"e", [⟨"k", "weird", "w"⟩], ""⟩] "weird" = [] := by
  decide

/-- C9 (amended): for every document list and every direction argument
among the documented values `"bidir"`, `"out"`, `"in"`,
`generate_links_table` returns one entry per distinct
`(source, tag, direction)` triple found in the documents' link metadata
whose direction equals the argument and no others (`Nodup` plus the
membership equivalence); `out`/`bidir` entries are emitted as
`(source, tag)` and `in` entries reversed as `(tag, source)`. -/
theorem generate_links_table_spec (documents : List Doc) (direction : String)
    (hdir : direction = "bidir" ∨ direction = "out" ∨ direction = "in") :
    (generate_links_table documents direction).Nodup ∧
    ∀ pr : String × String,
      pr ∈ generate_links_table documents direction ↔
        ∃ source tag, (source, tag, direction) ∈ collectTriples documents ∧
          (((direction = "bidir" ∨ direction = "out") ∧ pr = (source, tag)) ∨
            (direction = "in" ∧ pr = (tag, source))) := by
  constructor
  · apply List.Nodup.filterMap _ (List.nodup_dedup _)
    intro t t' pr hpr hpr'
    simp only [Option.mem_def] at hpr hpr'
    obtain ⟨t1, t2, t3⟩ := t
    obtain ⟨t1', t2', t3'⟩ := t'
    obtain ⟨p1, p2⟩ := pr
    split_ifs at hpr hpr' <;> simp_all
  · intro pr
    unfold generate_links_table
    simp only [List.mem_filterMap, List.mem_dedup]
    constructor
    · rintro ⟨t, ht, heq⟩
      obtain ⟨t1, t2, t3⟩ := t
      split_ifs at heq with h1 h2 h3 <;> cases heq
      · refine ⟨t1, t2, ?_, Or.inl ⟨Or.inl h1.1, rfl⟩⟩
        rw [h1.1, ← h1.2]; exact ht
      · refine ⟨t1, t2, ?_, Or.inl ⟨Or.inr h2.1, rfl⟩⟩
        rw [h2.1, ← h2.2]; exact ht
      · refine ⟨t1, t2, ?_, Or.inr ⟨h3.1, rfl⟩⟩
        rw [h3.1, ← h3.2]; exact ht
    · rintro ⟨source, tag, ht, hcase⟩
      refine ⟨(source, tag, direction), ht, ?_⟩
      rcases hcase with ⟨hd, hpr⟩ | ⟨hd, hpr⟩
      · rcases hd with hd | hd <;> subst hd <;> subst hpr <;> simp
      · subst hd; subst hpr; simp

theorem generate_links_table_spec_witness :
    (("out" : String) = "bidir" ∨ ("out" : String) = "out" ∨
      ("out" : String) = "in") ∧
    ((generate_links_table [⟨"c", [⟨"k", "out", "u"⟩], ""⟩] "out").Nodup ∧
      ∀ pr : String × String,
        pr ∈ generate_links_table [⟨"c", [⟨"k", "out", "u"⟩], ""⟩] "out" ↔
          ∃ source tag,
            (source, tag, "out") ∈ collectTriples [⟨"c", [⟨"k", "out", "u"⟩], ""⟩] ∧
            (((("out" : String) = "bidir" ∨ ("out" : String) = "out") ∧
                pr = (source, tag)) ∨
              (("out" : String) = "in" ∧ pr = (tag, source)))) :=
  ⟨Or.inr (Or.inl rfl),
    generate_links_table_spec [⟨"c", [⟨"k", "out", "u"⟩], ""⟩] "out"
      (Or.inr (Or.inl rfl))⟩

theorem splitLoop_eq_takeWhile (ends : List Nat) (m init : Nat) :
    splitLoop ends m init = (ends.takeWhile (fun e => e ≤ m)).getLastD init := by
  induction ends generalizing init with
  | nil => rfl
  | cons e r ih =>
    show (if e > m then init else splitLoop r m e) = _
    by_cases h : e ≤ m
    · rw [if_neg (by omega), ih e, List.takeWhile_cons_of_pos (by simpa using h),
        List.getLastD_cons]
    · rw [if_pos (by omega), List.takeWhile_cons_of_neg (by simpa using h)]
      rfl

theorem wordEnds_sorted (s : List Char) : (wordEnds s).Pairwise (· < ·) := by
  unfold wordEnds
  refine List.Pairwise.filterMap _ ?_ (List.pairwise_lt_range _)
  intro a a' hlt b hb b' hb'
  simp only [Option.mem_def] at hb hb'
  split_ifs at hb hb'
  cases hb
  cases hb'
  omega

theorem sorted_filter_eq_takeWhile (m : Nat) :
    ∀ l : List Nat, l.Pairwise (· < ·) →
      l.filter (fun e => e ≤ m) = l.takeWhile (fun e => e ≤ m) := by
  intro l hl
  induction l with
  | nil => rfl
  | cons e r ih =>
    rcases List.pairwise_cons.1 hl with ⟨hall, htail⟩
    by_cases h : e ≤ m
    · rw [List.filter_cons_of_pos (by simpa using h),
        List.takeWhile_cons_of_pos (by simpa using h), ih htail]
    · rw [List.filter_cons_of_neg (by simpa using h),
        List.takeWhile_cons_of_neg (by simpa using h)]
      apply List.filter_eq_nil_iff.2
      intro x hx
      have := hall x hx
      simp only [decide_eq_true_eq]
      omega

theorem getLastD_mem_or (l : List Nat) (d : Nat) :
    l.getLastD d = d ∨ l.getLastD d ∈ l := by
  induction l generalizing d with
  | nil => exact Or.inl rfl
  | cons e r ih =>
    rw [List.getLastD_cons]
    rcases ih e with h | h
    · exact Or.inr (by rw [h]; exact List.mem_cons_self e r)
    · exact Or.inr (List.mem_cons_of_mem e h)

/-- C8: for every string and positive `max_chars`, `_split_prefix`
returns either the string itself or `s[0:j] + "..."`, where `j` is the
end offset of the last whitespace-delimited word ending at or before
`max_chars` (the last element of the word-end offsets filtered to
`≤ max_chars`, with default `min (len s) max_chars` when no word ends
within the limit); `j ≤ max_chars`, and the result's length never
exceeds `max (len s) (max_chars + 3)`. -/
theorem splitPfx_spec (s : List Char) (max_chars : Nat) (_hpos : 0 < max_chars) :
    (splitPfx s max_chars = s ∨
      splitPfx s max_chars =
        s.take (((wordEnds s).filter (fun e => e ≤ max_chars)).getLastD
          (min s.length max_chars)) ++ ['.', '.', '.']) ∧
    ((wordEnds s).filter (fun e => e ≤ max_chars)).getLastD
        (min s.length max_chars) ≤ max_chars ∧
    (splitPfx s max_chars).length ≤ max s.length (max_chars + 3) := by
  have hsplit : splitLoop (wordEnds s) max_chars (min s.length max_chars) =
      ((wordEnds s).filter (fun e => e ≤ max_chars)).getLastD
        (min s.length max_chars) := by
    rw [splitLoop_eq_takeWhile,
      ← sorted_filter_eq_takeWhile max_chars _ (wordEnds_sorted s)]
  have hj : ((wordEnds s).filter (fun e => e ≤ max_chars)).getLastD
      (min s.length max_chars) ≤ max_chars := by
    rcases getLastD_mem_or ((wordEnds s).filter (fun e => e ≤ max_chars))
        (min s.length max_chars) with h | h
    · rw [h]; exact min_le_right _ _
    · have := List.mem_filter.1 h
      simpa using this.2
  have hunfold : splitPfx s max_chars =
      if ((wordEnds s).filter (fun e => e ≤ max_chars)).getLastD
          (min s.length max_chars) = s.length
      then s
      else s.take (((wordEnds s).filter (fun e => e ≤ max_chars)).getLastD
        (min s.length max_chars)) ++ ['.', '.', '.'] := by
    show (if splitLoop (wordEnds s) max_chars (min s.length max_chars) = s.length
        then s
        else s.take (splitLoop (wordEnds s) max_chars (min s.length max_chars)) ++
          ['.', '.', '.']) = _
    rw [hsplit]
  refine ⟨?_, hj, ?_⟩
  · rw [hunfold]
    split_ifs with h
    · exact Or.inl rfl
    · exact Or.inr rfl
  · rw [hunfold]
    split_ifs with h
    · exact le_max_left _ _
    · rw [List.length_append, List.length_take]
      have hmin : min (((wordEnds s).filter (fun e => e ≤ max_chars)).getLastD
          (min s.length max_chars)) s.length ≤ max_chars :=
        le_trans (min_le_left _ _) hj
      simp only [List.length_cons, List.length_nil]
      omega

theorem splitPfx_spec_witness :
    0 < 5 ∧
    ((splitPfx "abc def".data 5 = "abc def".data ∨
      splitPfx "abc def".data 5 =
        ("abc def".data).take (((wordEnds "abc def".data).filter
            (fun e => e ≤ 5)).getLastD (min ("abc def".data).length 5)) ++
          ['.', '.', '.']) ∧
    ((wordEnds "abc def".data).filter (fun e => e ≤ 5)).getLastD
        (min ("abc def".data).length 5) ≤ 5 ∧
    (splitPfx "abc def".data 5).length ≤ max ("abc def".data).length (5 + 3)) :=
  ⟨by decide, splitPfx_spec "abc def".data 5 (by decide)⟩

theorem pickBest_mem (caps : MMRCaps) (lam : ℚ) (sel : List Nat) :
    ∀ (c : Cand) (l : List Cand), pickBest caps lam sel c l ∈ c :: l := by
  intro c l
  induction l generalizing c with
  | nil => exact List.mem_cons_self _ _
  | cons d rest ih =>
    show (if betterCand caps lam sel d c then pickBest caps lam sel d rest
      else pickBest caps lam sel c rest) ∈ _
    split_ifs with h
    · exact List.mem_cons_of_mem c (ih d)
    · rcases List.mem_cons.1 (ih c) with h' | h'
      · rw [h']; exact List.mem_cons_self _ _
      · exact List.mem_cons_of_mem _ (List.mem_cons_of_mem _ h')

theorem expand_foldl_selected (caps : MMRCaps) (p : MMRParams) (chosen : Cand) :
    ∀ (nbs : List Nat) (st : SelState),
      (nbs.foldl (fun st nb =>
        if st.discovered.length < p.fetch_k.toNat ∧ nb ∉ st.selected ∧
            nb ∉ st.frontier.map Cand.id ∧ (chosen.depth + 1 : Int) ≤ p.depth then
          { st with
            frontier := st.frontier ++ [⟨nb, caps.simToQuery nb, chosen.depth + 1⟩],
            discovered := st.discovered ++ [nb] }
        else st) st).selected = st.selected := by
  intro nbs
  induction nbs with
  | nil => intro st; rfl
  | cons nb rest ih =>
    intro st
    rw [List.foldl_cons]
    split_ifs with h <;> rw [ih]

theorem expand_selected (caps : MMRCaps) (p : MMRParams) (chosen : Cand)
    (st : SelState) : (expand caps p chosen st).selected = st.selected :=
  expand_foldl_selected caps p chosen _ st

theorem expand_foldl_inv (caps : MMRCaps) (p : MMRParams) (chosen : Cand) :
    ∀ (nbs : List Nat) (st : SelState), SelInv st →
      SelInv (nbs.foldl (fun st nb =>
        if st.discovered.length < p.fetch_k.toNat ∧ nb ∉ st.selected ∧
            nb ∉ st.frontier.map Cand.id ∧ (chosen.depth + 1 : Int) ≤ p.depth then
          { st with
            frontier := st.frontier ++ [⟨nb, caps.simToQuery nb, chosen.depth + 1⟩],
            discovered := st.discovered ++ [nb] }
        else st) st) := by
  intro nbs
  induction nbs with
  | nil => intro st h; exact h
  | cons nb rest ih =>
    intro st h
    rw [List.foldl_cons]
    split_ifs with hcond
    · apply ih
      obtain ⟨hlen, hnd, hdisj⟩ := h
      obtain ⟨hfk, hnsel, hnfr, hdep⟩ := hcond
      refine ⟨?_, ?_, ?_⟩
      · simp only [List.length_append, List.length_cons, List.length_nil]
        simp only [hlen]
        omega
      · rw [List.map_append]
        simp only [List.map_cons, List.map_nil]
        rw [List.nodup_append]
        refine ⟨hnd, List.nodup_singleton _, ?_⟩
        intro x hx hxnb
        simp only [List.mem_singleton] at hxnb
        subst hxnb
        exact hnfr hx
      · intro c hc
        rcases List.mem_append.1 hc with hc | hc
        · exact hdisj c hc
        · simp only [List.mem_singleton] at hc
          subst hc
          exact hnsel
    · exact ih st h

theorem expand_inv (caps : MMRCaps) (p : MMRParams) (chosen : Cand)
    (st : SelState) (h : SelInv st) : SelInv (expand caps p chosen st) :=
  expand_foldl_inv caps p chosen _ st h

theorem filter_remove_one :
    ∀ (l : List Cand) (c : Cand), (l.map Cand.id).Nodup → c ∈ l →
      (l.filter (fun d => ¬ (d.id = c.id))).length + 1 = l.length := by
  intro l
  induction l with
  | nil => intro c _ hc; cases hc
  | cons d r ih =>
    intro c hnd hc
    rw [List.map_cons, List.nodup_cons] at hnd
    obtain ⟨hdid, hndr⟩ := hnd
    by_cases h : d.id = c.id
    · rw [List.filter_cons_of_neg (by simp [h])]
      have hfr : r.filter (fun d => ¬ (d.id = c.id)) = r := by
        apply List.filter_eq_self.2
        intro x hx
        simp only [decide_not, Bool.not_eq_true', decide_eq_false_iff_not]
        intro hxc
        exact hdid (by rw [h, ← hxc]; exact List.mem_map_of_mem Cand.id hx)
      rw [hfr]
      simp
    · rw [List.filter_cons_of_pos (by simp [h])]
      have hcr : c ∈ r := by
        rcases List.mem_cons.1 hc with hceq | hcr
        · exact absurd (by rw [hceq]) h
        · exact hcr
      simp only [List.length_cons]
      rw [ih c hndr hcr]

theorem step_inv (caps : MMRCaps) (lam : ℚ) (sel disc : List Nat) (c : Cand)
    (rest : List Cand) (h : SelInv ⟨sel, c :: rest, disc⟩) :
    SelInv { selected := sel ++ [(pickBest caps lam sel c rest).id],
             frontier := (c :: rest).filter
               (fun d => ¬ (d.id = (pickBest caps lam sel c rest).id)),
             discovered := disc } := by
  obtain ⟨hlen, hnd, hdisj⟩ := h
  simp only at hlen hnd hdisj
  have hmem : pickBest caps lam sel c rest ∈ c :: rest := pickBest_mem caps lam sel c rest
  have hrem := filter_remove_one (c :: rest) _ hnd hmem
  refine ⟨?_, ?_, ?_⟩
  · simp only [List.length_append, List.length_cons, List.length_nil]
    omega
  · exact List.Nodup.sublist (List.Sublist.map Cand.id (List.filter_sublist _)) hnd
  · intro c' hc'
    have hm := List.mem_filter.1 hc'
    have hne : ¬ (c'.id = (pickBest caps lam sel c rest).id) := by
      simpa using hm.2
    intro habs
    rcases List.mem_append.1 habs with hin | hin
    · exact hdisj c' hm.1 hin
    · exact hne (by simpa using hin)

theorem selectLoop_inv (caps : MMRCaps) (p : MMRParams) :
    ∀ (fuel : Nat) (st : SelState), SelInv st →
      SelInv (selectLoopMMR caps p fuel st) := by
  intro fuel
  induction fuel with
  | zero => intro st h; exact h
  | succ n ih =>
    intro st h
    obtain ⟨sel, fr, disc⟩ := st
    match fr with
    | [] => exact h
    | c :: rest =>
      exact ih _ (expand_inv caps p _ _ (step_inv caps p.lambda_mult sel disc c rest h))

theorem selectLoop_selected_le (caps : MMRCaps) (p : MMRParams) :
    ∀ (fuel : Nat) (st : SelState),
      (selectLoopMMR caps p fuel st).selected.length ≤
        st.selected.length + fuel := by
  intro fuel
  induction fuel with
  | zero => intro st; simp [selectLoopMMR]
  | succ n ih =>
    intro st
    obtain ⟨sel, fr, disc⟩ := st
    match fr with
    | [] =>
      show sel.length ≤ sel.length + (n + 1)
      omega
    | c :: rest =>
      have h1 := ih (expand caps p (pickBest caps p.lambda_mult sel c rest)
        { selected := sel ++ [(pickBest caps p.lambda_mult sel c rest).id],
          frontier := (c :: rest).filter
            (fun d => ¬ (d.id = (pickBest caps p.lambda_mult sel c rest).id)),
          discovered := disc })
      rw [expand_selected] at h1
      simp only [List.length_append, List.length_cons, List.length_nil] at h1
      show (selectLoopMMR caps p n _).selected.length ≤ sel.length + (n + 1)
      exact le_trans h1 (by omega)

theorem selectLoop_complete (caps : MMRCaps) (p : MMRParams) :
    ∀ (fuel : Nat) (st : SelState), SelInv st →
      (selectLoopMMR caps p fuel st).selected.length =
          st.selected.length + fuel ∨
        (selectLoopMMR caps p fuel st).frontier = [] := by
  intro fuel
  induction fuel with
  | zero => intro st _; left; simp [selectLoopMMR]
  | succ n ih =>
    intro st h
    obtain ⟨sel, fr, disc⟩ := st
    match fr with
    | [] => right; rfl
    | c :: rest =>
      have hinv' := expand_inv caps p (pickBest caps p.lambda_mult sel c rest)
        { selected := sel ++ [(pickBest caps p.lambda_mult sel c rest).id],
          frontier := (c :: rest).filter
            (fun d => ¬ (d.id = (pickBest caps p.lambda_mult sel c rest).id)),
          discovered := disc }
        (step_inv caps p.lambda_mult sel disc c rest h)
      rcases ih _ hinv' with h1 | h1
      · left
        rw [expand_selected] at h1
        simp only [List.length_append, List.length_cons, List.length_nil] at h1
        show (selectLoopMMR caps p n _).selected.length = sel.length + (n + 1)
        rw [h1]
        omega
      · right
        exact h1

theorem seedFrontier_aux_nodup :
    ∀ (seeds : List (Nat × ℚ)) (acc : List Cand), (acc.map Cand.id).Nodup →
      ((seeds.foldl (fun acc s =>
        if s.1 ∈ acc.map Cand.id then acc
        else acc ++ [⟨s.1, s.2, 0⟩]) acc).map Cand.id).Nodup := by
  intro seeds
  induction seeds with
  | nil => intro acc h; exact h
  | cons s rest ih =>
    intro acc h
    rw [List.foldl_cons]
    split_ifs with hmem
    · exact ih acc h
    · apply ih
      rw [List.map_append]
      simp only [List.map_cons, List.map_nil]
      rw [List.nodup_append]
      refine ⟨h, List.nodup_singleton _, ?_⟩
      intro x hx hxs
      simp only [List.mem_singleton] at hxs
      subst hxs
      exact hmem hx

theorem initState_inv (caps : MMRCaps) (p : MMRParams) :
    SelInv (initState caps p) := by
  unfold initState SelInv seedFrontier
  refine ⟨by simp, ?_, by simp⟩
  exact seedFrontier_aux_nodup _ [] (by simp)

/-- C2: on valid parameters `select` always succeeds with the run's
selection (a frontier that empties before `k` selections yields a
shorter list, not an error); the returned list never exceeds `k`
entries; and it has exactly `k` entries whenever at least `k` distinct
nodes were admitted to the frontier within the depth and `fetch_k`
bounds (the run's `discovered` set — the traversal-reachable candidates
under those bounds). -/
theorem select_bounded (caps : MMRCaps) (p : MMRParams)
    (hk : 0 < p.k) (hl0 : 0 ≤ p.lambda_mult) (hl1 : p.lambda_mult ≤ 1)
    (hf : 0 < p.fetch_k) (hd : 0 ≤ p.depth) :
    select caps p = Except.ok (runMMR caps p).selected ∧
    (runMMR caps p).selected.length ≤ p.k.toNat ∧
    (p.k.toNat ≤ (runMMR caps p).discovered.length →
      (runMMR caps p).selected.length = p.k.toNat) := by
  refine ⟨?_, ?_, ?_⟩
  · unfold select
    rw [if_neg]
    rintro (h | h | h | h | h)
    · omega
    · linarith
    · linarith
    · omega
    · omega
  · have h := selectLoop_selected_le caps p p.k.toNat (initState caps p)
    unfold runMMR
    have hsel : (initState caps p).selected = [] := rfl
    rw [hsel] at h
    simpa using h
  · intro hge
    have hle := selectLoop_selected_le caps p p.k.toNat (initState caps p)
    have hcomp := selectLoop_complete caps p p.k.toNat (initState caps p)
      (initState_inv caps p)
    have hsel : (initState caps p).selected = [] := rfl
    rw [hsel] at hle hcomp
    simp only [List.length_nil, Nat.zero_add] at hle hcomp
    have hge' : p.k.toNat ≤
        (selectLoopMMR caps p p.k.toNat (initState caps p)).discovered.length := hge
    show (selectLoopMMR caps p p.k.toNat (initState caps p)).selected.length =
      p.k.toNat
    rcases hcomp with h1 | h1
    · exact h1
    · have hinv := selectLoop_inv caps p p.k.toNat (initState caps p)
        (initState_inv caps p)
      obtain ⟨hlen2, _, _⟩ := hinv
      rw [h1] at hlen2
      simp only [List.length_nil, Nat.add_zero] at hlen2
      omega

theorem foldl_max_spec :
    ∀ (xs : List ℚ) (x : ℚ),
      (xs.foldl max x = x ∨ xs.foldl max x ∈ xs) ∧
      ∀ y, (y = x ∨ y ∈ xs) → y ≤ xs.foldl max x := by
  intro xs
  induction xs with
  | nil =>
    intro x
    refine ⟨Or.inl rfl, ?_⟩
    rintro y (rfl | hy)
    · exact le_refl _
    · cases hy
  | cons z zs ih =>
    intro x
    rw [List.foldl_cons]
    obtain ⟨hatt, hle⟩ := ih (max x z)
    constructor
    · rcases hatt with h | h
      · rcases max_choice x z with h' | h'
        · exact Or.inl (by rw [h, h'])
        · exact Or.inr (by rw [h, h']; exact List.mem_cons_self _ _)
      · exact Or.inr (List.mem_cons_of_mem _ h)
    · rintro y (rfl | hy)
      · exact le_trans (le_max_left _ z) (hle _ (Or.inl rfl))
      · rcases List.mem_cons.1 hy with rfl | hy'
        · exact le_trans (le_max_right x _) (hle _ (Or.inl rfl))
        · exact hle _ (Or.inr hy')

theorem maxSimToSelected_spec (caps : MMRCaps) (cid : Nat) :
    ∀ (sel : List Nat), sel ≠ [] →
      ∃ s ∈ sel, maxSimToSelected caps sel cid = caps.simBetween cid s ∧
        ∀ s' ∈ sel, caps.simBetween cid s' ≤ maxSimToSelected caps sel cid := by
  intro sel hne
  match sel with
  | [] => exact absurd rfl hne
  | s₀ :: ss =>
    have hval : maxSimToSelected caps (s₀ :: ss) cid =
        (ss.map (fun s => caps.simBetween cid s)).foldl max
          (caps.simBetween cid s₀) := rfl
    obtain ⟨hatt, hle⟩ := foldl_max_spec
      (ss.map (fun s => caps.simBetween cid s)) (caps.simBetween cid s₀)
    rw [hval]
    rcases hatt with h | h
    · refine ⟨s₀, List.mem_cons_self _ _, h, ?_⟩
      intro s' hs'
      apply hle
      rcases List.mem_cons.1 hs' with rfl | hs''
      · exact Or.inl rfl
      · exact Or.inr (List.mem_map_of_mem _ hs'')
    · obtain ⟨s, hs, hseq⟩ := List.mem_map.1 h
      refine ⟨s, List.mem_cons_of_mem _ hs, hseq.symm, ?_⟩
      intro s' hs'
      apply hle
      rcases List.mem_cons.1 hs' with rfl | hs''
      · exact Or.inl rfl
      · exact Or.inr (List.mem_map_of_mem _ hs'')

/-- C1 (spec-modelled): at every reachable state of the traversal loop,
every frontier candidate's combined score is
`lambda_mult * similarity(c, query) - (1 - lambda_mult) *
max_over_selected(similarity(c, s))`; with no selected nodes the
diversity term is zero; the candidate is never itself selected, so the
maximum — attained at some selected node distinct from the candidate —
never includes a self-similarity. -/
theorem mmr_score_spec (caps : MMRCaps) (p : MMRParams) (n : Nat) (c : Cand)
    (hc : c ∈ (selectLoopMMR caps p n (initState caps p)).frontier) :
    combinedScore caps p.lambda_mult
        (selectLoopMMR caps p n (initState caps p)).selected c =
      p.lambda_mult * c.sim - (1 - p.lambda_mult) *
        maxSimToSelected caps
          (selectLoopMMR caps p n (initState caps p)).selected c.id ∧
    ((selectLoopMMR caps p n (initState caps p)).selected = [] →
      maxSimToSelected caps
        (selectLoopMMR caps p n (initState caps p)).selected c.id = 0) ∧
    c.id ∉ (selectLoopMMR caps p n (initState caps p)).selected ∧
    ((selectLoopMMR caps p n (initState caps p)).selected ≠ [] →
      ∃ s ∈ (selectLoopMMR caps p n (initState caps p)).selected, s ≠ c.id ∧
        maxSimToSelected caps
            (selectLoopMMR caps p n (initState caps p)).selected c.id =
          caps.simBetween c.id s ∧
        ∀ s' ∈ (selectLoopMMR caps p n (initState caps p)).selected,
          caps.simBetween c.id s' ≤
            maxSimToSelected caps
              (selectLoopMMR caps p n (initState caps p)).selected c.id) := by
  have hinv := selectLoop_inv caps p n (initState caps p) (initState_inv caps p)
  obtain ⟨_, _, hdisj⟩ := hinv
  have hnotin := hdisj c hc
  refine ⟨rfl, ?_, hnotin, ?_⟩
  · intro hsel
    rw [hsel]
    rfl
  · intro hne
    obtain ⟨s, hs, heq, hub⟩ := maxSimToSelected_spec caps c.id _ hne
    exact ⟨s, hs, fun habs => hnotin (habs ▸ hs), heq, hub⟩

theorem select_bounded_witness :
    (0 < (⟨2, 0, 1, 10⟩ : MMRParams).k ∧
      0 ≤ (⟨2, 0, 1, 10⟩ : MMRParams).lambda_mult ∧
      (⟨2, 0, 1, 10⟩ : MMRParams).lambda_mult ≤ 1 ∧
      0 < (⟨2, 0, 1, 10⟩ : MMRParams).fetch_k ∧
      0 ≤ (⟨2, 0, 1, 10⟩ : MMRParams).depth) ∧
    (select ⟨fun _ => [(0, 2), (1, 1)], fun _ => 0, fun _ _ => 0, fun _ => []⟩
        ⟨2, 0, 1, 10⟩ =
      Except.ok (runMMR ⟨fun _ => [(0, 2), (1, 1)], fun _ => 0, fun _ _ => 0,
        fun _ => []⟩ ⟨2, 0, 1, 10⟩).selected ∧
    (runMMR ⟨fun _ => [(0, 2), (1, 1)], fun _ => 0, fun _ _ => 0, fun _ => []⟩
        ⟨2, 0, 1, 10⟩).selected.length ≤ (⟨2, 0, 1, 10⟩ : MMRParams).k.toNat ∧
    ((⟨2, 0, 1, 10⟩ : MMRParams).k.toNat ≤
        (runMMR ⟨fun _ => [(0, 2), (1, 1)], fun _ => 0, fun _ _ => 0,
          fun _ => []⟩ ⟨2, 0, 1, 10⟩).discovered.length →
      (runMMR ⟨fun _ => [(0, 2), (1, 1)], fun _ => 0, fun _ _ => 0,
        fun _ => []⟩ ⟨2, 0, 1, 10⟩).selected.length =
        (⟨2, 0, 1, 10⟩ : MMRParams).k.toNat)) :=
  ⟨⟨by decide, zero_le_one, le_refl 1, by decide, le_refl 0⟩,
    select_bounded ⟨fun _ => [(0, 2), (1, 1)], fun _ => 0, fun _ _ => 0,
        fun _ => []⟩ ⟨2, 0, 1, 10⟩
      (by decide) zero_le_one (le_refl 1) (by decide) (le_refl 0)⟩

theorem mmr_score_spec_witness :
    ((⟨0, 2, 0⟩ : Cand) ∈ (selectLoopMMR
      ⟨fun _ => [(0, 2), (1, 1)], fun _ => 0, fun _ _ => 0, fun _ => []⟩
      ⟨2, 0, 1, 10⟩ 0
      (initState ⟨fun _ => [(0, 2), (1, 1)], fun _ => 0, fun _ _ => 0,
        fun _ => []⟩ ⟨2, 0, 1, 10⟩)).frontier) ∧
    (combinedScore ⟨fun _ => [(0, 2), (1, 1)], fun _ => 0, fun _ _ => 0,
        fun _ => []⟩ (⟨2, 0, 1, 10⟩ : MMRParams).lambda_mult
        (selectLoopMMR ⟨fun _ => [(0, 2), (1, 1)], fun _ => 0, fun _ _ => 0,
          fun _ => []⟩ ⟨2, 0, 1, 10⟩ 0
          (initState ⟨fun _ => [(0, 2), (1, 1)], fun _ => 0, fun _ _ => 0,
            fun _ => []⟩ ⟨2, 0, 1, 10⟩)).selected (⟨0, 2, 0⟩ : Cand) =
      (⟨2, 0, 1, 10⟩ : MMRParams).lambda_mult * (⟨0, 2, 0⟩ : Cand).sim -
        (1 - (⟨2, 0, 1, 10⟩ : MMRParams).lambda_mult) *
          maxSimToSelected ⟨fun _ => [(0, 2), (1, 1)], fun _ => 0, fun _ _ => 0,
            fun _ => []⟩
            (selectLoopMMR ⟨fun _ => [(0, 2), (1, 1)], fun _ => 0, fun _ _ => 0,
              fun _ => []⟩ ⟨2, 0, 1, 10⟩ 0
              (initState ⟨fun _ => [(0, 2), (1, 1)], fun _ => 0, fun _ _ => 0,
                fun _ => []⟩ ⟨2, 0, 1, 10⟩)).selected (⟨0, 2, 0⟩ : Cand).id ∧
    ((selectLoopMMR ⟨fun _ => [(0, 2), (1, 1)], fun _ => 0, fun _ _ => 0,
        fun _ => []⟩ ⟨2, 0, 1, 10⟩ 0
        (initState ⟨fun _ => [(0, 2), (1, 1)], fun _ => 0, fun _ _ => 0,
          fun _ => []⟩ ⟨2, 0, 1, 10⟩)).selected = [] →
      maxSimToSelected ⟨fun _ => [(0, 2), (1, 1)], fun _ => 0, fun _ _ => 0,
        fun _ => []⟩
        (selectLoopMMR ⟨fun _ => [(0, 2), (1, 1)], fun _ => 0, fun _ _ => 0,
          fun _ => []⟩ ⟨2, 0, 1, 10⟩ 0
          (initState ⟨fun _ => [(0, 2), (1, 1)], fun _ => 0, fun _ _ => 0,
            fun _ => []⟩ ⟨2, 0, 1, 10⟩)).selected (⟨0, 2, 0⟩ : Cand).id = 0) ∧
    (⟨0, 2, 0⟩ : Cand).id ∉ (selectLoopMMR
      ⟨fun _ => [(0, 2), (1, 1)], fun _ => 0, fun _ _ => 0, fun _ => []⟩
      ⟨2, 0, 1, 10⟩ 0
      (initState ⟨fun _ => [(0, 2), (1, 1)], fun _ => 0, fun _ _ => 0,
        fun _ => []⟩ ⟨2, 0, 1, 10⟩)).selected ∧
    ((selectLoopMMR ⟨fun _ => [(0, 2), (1, 1)], fun _ => 0, fun _ _ => 0,
        fun _ => []⟩ ⟨2, 0, 1, 10⟩ 0
        (initState ⟨fun _ => [(0, 2), (1, 1)], fun _ => 0, fun _ _ => 0,
          fun _ => []⟩ ⟨2, 0, 1, 10⟩)).selected ≠ [] →
      ∃ s ∈ (selectLoopMMR ⟨fun _ => [(0, 2), (1, 1)], fun _ => 0, fun _ _ => 0,
          fun _ => []⟩ ⟨2, 0, 1, 10⟩ 0
          (initState ⟨fun _ => [(0, 2), (1, 1)], fun _ => 0, fun _ _ => 0,
            fun _ => []⟩ ⟨2, 0, 1, 10⟩)).selected, s ≠ (⟨0, 2, 0⟩ : Cand).id ∧
        maxSimToSelected ⟨fun _ => [(0, 2), (1, 1)], fun _ => 0, fun _ _ => 0,
            fun _ => []⟩
            (selectLoopMMR ⟨fun _ => [(0, 2), (1, 1)], fun _ => 0, fun _ _ => 0,
              fun _ => []⟩ ⟨2, 0, 1, 10⟩ 0
              (initState ⟨fun _ => [(0, 2), (1, 1)], fun _ => 0, fun _ _ => 0,
                fun _ => []⟩ ⟨2, 0, 1, 10⟩)).selected (⟨0, 2, 0⟩ : Cand).id =
          (⟨fun _ => [(0, 2), (1, 1)], fun _ => 0, fun _ _ => 0,
            fun _ => []⟩ : MMRCaps).simBetween (⟨0, 2, 0⟩ : Cand).id s ∧
        ∀ s' ∈ (selectLoopMMR ⟨fun _ => [(0, 2), (1, 1)], fun _ => 0,
            fun _ _ => 0, fun _ => []⟩ ⟨2, 0, 1, 10⟩ 0
            (initState ⟨fun _ => [(0, 2), (1, 1)], fun _ => 0, fun _ _ => 0,
              fun _ => []⟩ ⟨2, 0, 1, 10⟩)).selected,
          (⟨fun _ => [(0, 2), (1, 1)], fun _ => 0, fun _ _ => 0,
            fun _ => []⟩ : MMRCaps).simBetween (⟨0, 2, 0⟩ : Cand).id s' ≤
            maxSimToSelected ⟨fun _ => [(0, 2), (1, 1)], fun _ => 0,
              fun _ _ => 0, fun _ => []⟩
              (selectLoopMMR ⟨fun _ => [(0, 2), (1, 1)], fun _ => 0,
                fun _ _ => 0, fun _ => []⟩ ⟨2, 0, 1, 10⟩ 0
                (initState ⟨fun _ => [(0, 2), (1, 1)], fun _ => 0, fun _ _ => 0,
                  fun _ => []⟩ ⟨2, 0, 1, 10⟩)).selected
              (⟨0, 2, 0⟩ : Cand).id)) :=
  ⟨List.mem_cons_self _ _,
    mmr_score_spec ⟨fun _ => [(0, 2), (1, 1)], fun _ => 0, fun _ _ => 0,
      fun _ => []⟩ ⟨2, 0, 1, 10⟩ 0 ⟨0, 2, 0⟩ (List.mem_cons_self _ _)⟩

theorem chainAux_ne_nil (p : List (String × String)) (f : Nat) (x : String) :
    chainAux p f x ≠ [] := by
  match f with
  | 0 => simp [chainAux]
  | g + 1 =>
    unfold chainAux
    match p.lookup x with
    | none => simp
    | some y => simp

theorem mem_chainAux_self (p : List (String × String)) (f : Nat) (x : String) :
    x ∈ chainAux p f x := by
  match f with
  | 0 => simp [chainAux]
  | g + 1 =>
    unfold chainAux
    match p.lookup x with
    | none => simp
    | some y => exact List.mem_cons_self _ _

theorem chainAux_head (p : List (String × String)) (f : Nat) (x : String) :
    ∃ t, chainAux p f x = x :: t := by
  match f with
  | 0 => exact ⟨[], rfl⟩
  | g + 1 =>
    unfold chainAux
    match p.lookup x with
    | none => exact ⟨[], rfl⟩
    | some y => exact ⟨_, rfl⟩

theorem chainAux_length_le (p : List (String × String)) :
    ∀ (f : Nat) (x : String), (chainAux p f x).length ≤ f + 1 := by
  intro f
  induction f with
  | zero => intro x; simp [chainAux]
  | succ g ih =>
    intro x
    unfold chainAux
    match p.lookup x with
    | none => simp
    | some y =>
      simp only [List.length_cons]
      exact Nat.succ_le_succ (ih y)

theorem getLastD_of_ne_nil {α : Type} (l : List α) (h : l ≠ []) (d d' : α) :
    l.getLastD d = l.getLastD d' := by
  match l with
  | [] => exact absurd rfl h
  | a :: t => rw [List.getLastD_cons, List.getLastD_cons]

theorem getLastD_mem_or' {α : Type} (l : List α) (d : α) :
    l.getLastD d = d ∨ l.getLastD d ∈ l := by
  induction l generalizing d with
  | nil => exact Or.inl rfl
  | cons e r ih =>
    rw [List.getLastD_cons]
    rcases ih e with h | h
    · exact Or.inr (by rw [h]; exact List.mem_cons_self e r)
    · exact Or.inr (List.mem_cons_of_mem e h)

theorem lookup_mem {p : List (String × String)} {x y : String}
    (h : p.lookup x = some y) : (x, y) ∈ p := by
  induction p with
  | nil => cases h
  | cons q rest ih =>
    obtain ⟨k, v⟩ := q
    cases hbe : (x == k) with
    | true =>
      have hkv : List.lookup x ((k, v) :: rest) = some v := by
        simp [List.lookup, hbe]
      rw [hkv] at h
      cases h
      have hxq : x = k := by simpa using hbe
      rw [hxq]
      exact List.mem_cons_self _ _
    | false =>
      have hkv : List.lookup x ((k, v) :: rest) = List.lookup x rest := by
        simp [List.lookup, hbe]
      rw [hkv] at h
      exact List.mem_cons_of_mem _ (ih h)

theorem chainAux_fuel_change (p : List (String × String)) :
    ∀ (f : Nat) (x : String),
      p.lookup ((chainAux p f x).getLastD x) = none →
      ∀ (g : Nat), (chainAux p f x).length ≤ g + 1 →
        chainAux p g x = chainAux p f x := by
  intro f
  induction f with
  | zero =>
    intro x hroot g _
    simp only [chainAux, List.getLastD_cons, List.getLastD_nil] at hroot
    match g with
    | 0 => rfl
    | g' + 1 =>
      show (match p.lookup x with
        | none => [x]
        | some y => x :: chainAux p g' y) = chainAux p 0 x
      rw [hroot]
      rfl
  | succ m ih =>
    intro x hroot g hlen
    rcases hlook : p.lookup x with _ | y
    · have hx : chainAux p (m + 1) x = [x] := by
        show (match p.lookup x with
          | none => [x]
          | some y => x :: chainAux p m y) = [x]
        rw [hlook]
      rw [hx]
      match g with
      | 0 => rfl
      | g' + 1 =>
        show (match p.lookup x with
          | none => [x]
          | some y => x :: chainAux p g' y) = [x]
        rw [hlook]
    · have hx : chainAux p (m + 1) x = x :: chainAux p m y := by
        show (match p.lookup x with
          | none => [x]
          | some y' => x :: chainAux p m y') = x :: chainAux p m y
        rw [hlook]
      rw [hx] at hroot hlen ⊢
      rw [List.getLastD_cons] at hroot
      have hroot' : p.lookup ((chainAux p m y).getLastD y) = none := by
        rw [getLastD_of_ne_nil _ (chainAux_ne_nil p m y) y x]
        exact hroot
      simp only [List.length_cons] at hlen
      have hne : (chainAux p m y).length ≥ 1 :=
        List.length_pos.2 (chainAux_ne_nil p m y)
      match g with
      | 0 => omega
      | g' + 1 =>
        show (match p.lookup x with
          | none => [x]
          | some y' => x :: chainAux p g' y') = x :: chainAux p m y
        rw [hlook]
        show x :: chainAux p g' y = x :: chainAux p m y
        rw [ih y hroot' g' (by omega)]

theorem chain_of_lookup_none (p : List (String × String)) (x : String)
    (h : p.lookup x = none) : ∀ f, chainAux p f x = [x] := by
  intro f
  match f with
  | 0 => rfl
  | g + 1 =>
    show (match p.lookup x with
      | none => [x]
      | some y => x :: chainAux p g y) = [x]
    rw [h]

theorem chain_length_le_names (st : VGState) (hinv : VGInv st) (x : String)
    (hx : x ∈ st.names) :
    (chainAux st.parent st.names.length x).length ≤ st.names.length := by
  obtain ⟨hnd, hpar, hch⟩ := hinv
  obtain ⟨hxnd, hxsub, hxroot⟩ := hch x hx
  exact (hxnd.subperm hxsub).length_le

theorem chain_norm (st : VGState) (hinv : VGInv st) (x y : String)
    (hx : x ∈ st.names) (hlook : st.parent.lookup x = some y) :
    chainAux st.parent st.names.length x =
      x :: chainAux st.parent st.names.length y ∧ y ∈ st.names := by
  have hy : y ∈ st.names := (hinv.2.1 _ (lookup_mem hlook)).2
  have hyroot := (hinv.2.2 y hy).2.2
  have hylen := chain_length_le_names st hinv y hy
  have hF : 0 < st.names.length := List.length_pos.2 (by rintro h; rw [h] at hx; cases hx)
  refine ⟨?_, hy⟩
  obtain ⟨m, hm⟩ : ∃ m, st.names.length = m + 1 := ⟨st.names.length - 1, by omega⟩
  rw [hm]
  show (match st.parent.lookup x with
    | none => [x]
    | some y' => x :: chainAux st.parent m y') =
    x :: chainAux st.parent (m + 1) y
  rw [hlook]
  show x :: chainAux st.parent m y = x :: chainAux st.parent (m + 1) y
  rw [chainAux_fuel_change st.parent (m + 1) y (by rw [← hm]; exact hyroot) m
    (by rw [← hm]; exact hylen)]

theorem chain_suffix_fuel (st : VGState) (hinv : VGInv st) :
    ∀ (n : Nat) (x : String), x ∈ st.names →
      (chainAux st.parent st.names.length x).length ≤ n →
      ∀ y ∈ chainAux st.parent st.names.length x,
        ∃ q, chainAux st.parent st.names.length x =
          q ++ chainAux st.parent st.names.length y := by
  intro n
  induction n with
  | zero =>
    intro x _ hlen
    have := List.length_pos.2 (chainAux_ne_nil st.parent st.names.length x)
    omega
  | succ m ih =>
    intro x hx hlen y hy
    rcases hlook : st.parent.lookup x with _ | w
    · have hx1 := chain_of_lookup_none st.parent x hlook st.names.length
      rw [hx1] at hy
      rcases List.mem_singleton.1 hy with rfl
      exact ⟨[], rfl⟩
    · obtain ⟨hxw, hw⟩ := chain_norm st hinv x w hx hlook
      rw [hxw] at hy
      rcases List.mem_cons.1 hy with rfl | hyw
      · exact ⟨[], rfl⟩
      · have hlenw : (chainAux st.parent st.names.length w).length ≤ m := by
          rw [hxw] at hlen
          simp only [List.length_cons] at hlen
          omega
        obtain ⟨q, hq⟩ := ih w hw hlenw y hyw
        exact ⟨x :: q, by rw [hxw, hq]; rfl⟩

theorem chain_suffix (st : VGState) (hinv : VGInv st) (x : String)
    (hx : x ∈ st.names) :
    ∀ y ∈ chainAux st.parent st.names.length x,
      ∃ q, chainAux st.parent st.names.length x =
        q ++ chainAux st.parent st.names.length y :=
  chain_suffix_fuel st hinv (chainAux st.parent st.names.length x).length x hx
    (le_refl _)

theorem nodup_split_unique {α : Type} :
    ∀ (a c : List α) (y : α) (b d : List α), (a ++ y :: b).Nodup →
      a ++ y :: b = c ++ y :: d → a = c ∧ b = d := by
  intro a
  induction a with
  | nil =>
    intro c y b d hnd heq
    match c with
    | [] =>
      simp only [List.nil_append] at heq
      injection heq with h1 h2
      exact ⟨rfl, h2⟩
    | c₀ :: c' =>
      simp only [List.nil_append, List.cons_append] at heq
      obtain ⟨h1, h2⟩ := List.cons.inj heq
      exfalso
      simp only [List.nil_append] at hnd
      rw [List.nodup_cons] at hnd
      exact hnd.1 (by rw [h2, h1]; exact List.mem_append_right _ (List.mem_cons_self _ _))
  | cons a₀ a' ih =>
    intro c y b d hnd heq
    match c with
    | [] =>
      simp only [List.nil_append, List.cons_append] at heq
      obtain ⟨h1, h2⟩ := List.cons.inj heq
      exfalso
      rw [List.cons_append, List.nodup_cons] at hnd
      exact hnd.1 (by rw [h1]; exact List.mem_append_right _ (List.mem_cons_self _ _))
    | c₀ :: c' =>
      simp only [List.cons_append] at heq
      obtain ⟨h1, h2⟩ := List.cons.inj heq
      rw [List.cons_append, List.nodup_cons] at hnd
      obtain ⟨hae, hbd⟩ := ih c' y b d hnd.2 h2
      exact ⟨by rw [h1, hae], hbd⟩

theorem pre_disjoint_chain (st : VGState) (hinv : VGInv st) (a b : String)
    (ha : a ∈ st.names)
    (hguard : b ∉ chainAux st.parent st.names.length a)
    (x : String) (hx : x ∈ st.names) (pre : List String)
    (hpre : chainAux st.parent st.names.length x =
      pre ++ chainAux st.parent st.names.length b) :
    ∀ y ∈ pre, y ∉ chainAux st.parent st.names.length a := by
  intro y hy hya
  obtain ⟨q2, hq2⟩ := chain_suffix st hinv a ha y hya
  have hbny : b ∉ chainAux st.parent st.names.length y := by
    intro hb
    exact hguard (by rw [hq2]; exact List.mem_append_right _ hb)
  have hyx : y ∈ chainAux st.parent st.names.length x := by
    rw [hpre]; exact List.mem_append_left _ hy
  obtain ⟨q1, hq1⟩ := chain_suffix st hinv x hx y hyx
  obtain ⟨t, ht⟩ := chainAux_head st.parent st.names.length y
  obtain ⟨r1, r2, hr⟩ := List.append_of_mem hy
  have hnd : (chainAux st.parent st.names.length x).Nodup :=
    (hinv.2.2 x hx).1
  have e1 : chainAux st.parent st.names.length x =
      r1 ++ y :: (r2 ++ chainAux st.parent st.names.length b) := by
    rw [hpre, hr]
    simp [List.append_assoc]
  have e2 : chainAux st.parent st.names.length x = q1 ++ y :: t := by
    rw [hq1, ht]
  obtain ⟨-, hbd⟩ := nodup_split_unique r1 q1 y
    (r2 ++ chainAux st.parent st.names.length b) t
    (by rw [← e1]; exact hnd) (by rw [← e1, e2])
  apply hbny
  rw [ht, ← hbd]
  exact List.mem_cons_of_mem _
    (List.mem_append_right _ (mem_chainAux_self st.parent st.names.length b))

theorem lookup_filter_ne (p : List (String × String)) (b x : String)
    (hx : ¬ (x = b)) :
    (p.filter (fun q => ¬ (q.1 = b))).lookup x = p.lookup x := by
  induction p with
  | nil => rfl
  | cons q rest ih =>
    obtain ⟨k, v⟩ := q
    by_cases hk : k = b
    · rw [List.filter_cons_of_neg (by simp [hk])]
      rw [ih]
      have hxk : (x == k) = false := by
        simp only [beq_eq_false_iff_ne, ne_eq]
        intro h
        exact hx (by rw [h, hk])
      show List.lookup x rest = List.lookup x ((k, v) :: rest)
      simp [List.lookup, hxk]
    · rw [List.filter_cons_of_pos (by simp [hk])]
      cases hbe : (x == k) with
      | true =>
        simp [List.lookup, hbe]
      | false =>
        simp only [List.lookup, hbe]
        exact ih

theorem lookup_setParent (p : List (String × String)) (b a x : String) :
    (setParent p b a).lookup x = if x = b then some a else p.lookup x := by
  unfold setParent
  by_cases hx : x = b
  · rw [if_pos hx]
    have : (x == b) = true := by simpa using hx
    simp [List.lookup, this]
  · rw [if_neg hx]
    have hbe : (x == b) = false := by simpa using hx
    simp only [List.lookup, hbe]
    exact lookup_filter_ne p b x hx

theorem chainAux_setParent_not_mem (p : List (String × String)) (b a : String) :
    ∀ (f : Nat) (x : String), b ∉ chainAux p f x →
      chainAux (setParent p b a) f x = chainAux p f x := by
  intro f
  induction f with
  | zero => intro x _; rfl
  | succ m ih =>
    intro x hb
    have hxb : ¬ (x = b) := by
      intro h
      exact hb (h ▸ mem_chainAux_self p (m + 1) x)
    have hlk : (setParent p b a).lookup x = p.lookup x := by
      rw [lookup_setParent, if_neg hxb]
    rcases hlook : p.lookup x with _ | y
    · rw [chain_of_lookup_none p x hlook, chain_of_lookup_none (setParent p b a) x
        (by rw [hlk, hlook])]
    · have h1 : chainAux p (m + 1) x = x :: chainAux p m y := by
        show (match p.lookup x with
          | none => [x]
          | some y' => x :: chainAux p m y') = x :: chainAux p m y
        rw [hlook]
      have h2 : chainAux (setParent p b a) (m + 1) x =
          x :: chainAux (setParent p b a) m y := by
        show (match (setParent p b a).lookup x with
          | none => [x]
          | some y' => x :: chainAux (setParent p b a) m y') =
          x :: chainAux (setParent p b a) m y
        rw [hlk, hlook]
      rw [h1] at hb
      rw [h1, h2, ih y (fun hby => hb (List.mem_cons_of_mem _ hby))]

theorem getLastD_append_ne {α : Type} :
    ∀ (l₁ l₂ : List α), l₂ ≠ [] → ∀ d, (l₁ ++ l₂).getLastD d = l₂.getLastD d := by
  intro l₁
  induction l₁ with
  | nil => intro l₂ _ d; rfl
  | cons e r ih =>
    intro l₂ h d
    rw [List.cons_append, List.getLastD_cons, ih l₂ h e,
      getLastD_of_ne_nil l₂ h e d]

theorem chain_update_through_b (st : VGState) (hinv : VGInv st) (a b : String)
    (ha : a ∈ st.names) (hb : b ∈ st.names)
    (hguard : b ∉ chainAux st.parent st.names.length a) :
    ∀ (pre : List String) (x : String), x ∈ st.names →
      chainAux st.parent st.names.length x =
        pre ++ chainAux st.parent st.names.length b →
      chainAux (setParent st.parent b a) st.names.length x =
        pre ++ b :: chainAux st.parent st.names.length a := by
  intro pre
  induction pre with
  | nil =>
    intro x hx hpre
    simp only [List.nil_append] at hpre ⊢
    have hxb : x = b := by
      obtain ⟨t, htx⟩ := chainAux_head st.parent st.names.length x
      obtain ⟨t', htb⟩ := chainAux_head st.parent st.names.length b
      rw [htx, htb] at hpre
      exact (List.cons.inj hpre).1
    subst hxb
    have hF : 0 < st.names.length :=
      List.length_pos.2 (by rintro h; rw [h] at hx; cases hx)
    obtain ⟨m, hm⟩ : ∃ m, st.names.length = m + 1 := ⟨st.names.length - 1, by omega⟩
    have haroot := (hinv.2.2 a ha).2.2
    have halen := chain_length_le_names st hinv a ha
    have hcham : chainAux st.parent m a =
        chainAux st.parent st.names.length a :=
      chainAux_fuel_change st.parent st.names.length a haroot m (by omega)
    conv_lhs => rw [hm]
    show (match (setParent st.parent x a).lookup x with
      | none => [x]
      | some y => x :: chainAux (setParent st.parent x a) m y) =
      x :: chainAux st.parent st.names.length a
    rw [lookup_setParent, if_pos rfl]
    show x :: chainAux (setParent st.parent x a) m a =
      x :: chainAux st.parent st.names.length a
    rw [chainAux_setParent_not_mem st.parent x a m a (by rw [hcham]; exact hguard),
      hcham]
  | cons x₀ pre' ih =>
    intro x hx hpre
    have hxx₀ : x₀ = x := by
      obtain ⟨t, htx⟩ := chainAux_head st.parent st.names.length x
      rw [htx, List.cons_append] at hpre
      exact ((List.cons.inj hpre).1).symm
    subst hxx₀
    rcases hlook : st.parent.lookup x₀ with _ | w
    · exfalso
      rw [chain_of_lookup_none st.parent x₀ hlook, List.cons_append] at hpre
      have h2 := (List.cons.inj hpre).2
      exact chainAux_ne_nil st.parent st.names.length b
        (List.append_eq_nil.1 h2.symm).2
    · obtain ⟨hxw, hw⟩ := chain_norm st hinv x₀ w hx hlook
      have hchw : chainAux st.parent st.names.length w =
          pre' ++ chainAux st.parent st.names.length b := by
        rw [hxw, List.cons_append] at hpre
        exact (List.cons.inj hpre).2
      have hih := ih w hw hchw
      have hxnd : (chainAux st.parent st.names.length x₀).Nodup :=
        (hinv.2.2 x₀ hx).1
      have hxsub := (hinv.2.2 x₀ hx).2.1
      have hnd2 : ¬ x₀ ∈ chainAux st.parent st.names.length w ∧
          (chainAux st.parent st.names.length w).Nodup := by
        have h0 := hxnd
        rw [hxw, List.nodup_cons] at h0
        exact h0
      have hx₀b : ¬ (x₀ = b) := by
        intro h
        apply hnd2.1
        rw [hchw]
        refine List.mem_append_right _ ?_
        rw [← h]
        exact mem_chainAux_self _ _ _
      have hndw : (pre' ++ b :: chainAux st.parent st.names.length a).Nodup := by
        have htail : (pre' ++ chainAux st.parent st.names.length b).Nodup := by
          rw [← hchw]
          exact hnd2.2
        rw [List.nodup_append] at htail
        obtain ⟨hpnd, hbnd, hpdisj⟩ := htail
        have hbpre : b ∉ pre' := fun hmem =>
          hpdisj hmem (mem_chainAux_self _ _ _)
        have hand : (chainAux st.parent st.names.length a).Nodup :=
          (hinv.2.2 a ha).1
        rw [List.nodup_append]
        refine ⟨hpnd, ?_, ?_⟩
        · rw [List.nodup_cons]
          exact ⟨hguard, hand⟩
        · intro y hy hymem
          rcases List.mem_cons.1 hymem with rfl | hya
          · exact hbpre hy
          · exact pre_disjoint_chain st hinv a b ha hguard w hw pre' hchw y hy hya
      have hsubw : ∀ y ∈ pre' ++ b :: chainAux st.parent st.names.length a,
          y ∈ st.names := by
        intro y hy
        rcases List.mem_append.1 hy with hy | hy
        · exact hxsub y (by
            rw [hxw]
            exact List.mem_cons_of_mem _ (by
              rw [hchw]; exact List.mem_append_left _ hy))
        · rcases List.mem_cons.1 hy with rfl | hya
          · exact hb
          · exact (hinv.2.2 a ha).2.1 y hya
      have hlenw : (pre' ++ b :: chainAux st.parent st.names.length a).length ≤
          st.names.length :=
        (hndw.subperm hsubw).length_le
      have har := (hinv.2.2 a ha).2.2
      have hroot' : (setParent st.parent b a).lookup
          ((chainAux (setParent st.parent b a) st.names.length w).getLastD w) =
          none := by
        rw [hih]
        have hane : chainAux st.parent st.names.length a ≠ [] :=
          chainAux_ne_nil _ _ _
        rw [getLastD_append_ne pre' _ (by simp) w, List.getLastD_cons,
          getLastD_of_ne_nil _ hane b a]
        have hra : (chainAux st.parent st.names.length a).getLastD a ∈
            chainAux st.parent st.names.length a := by
          rcases getLastD_mem_or' (chainAux st.parent st.names.length a) a with h | h
          · rw [h]; exact mem_chainAux_self _ _ _
          · exact h
        have hrb : ¬ ((chainAux st.parent st.names.length a).getLastD a = b) :=
          fun h => hguard (h ▸ hra)
        rw [lookup_setParent, if_neg hrb]
        exact har
      have hF : 0 < st.names.length :=
        List.length_pos.2 (by rintro h; rw [h] at hx; cases hx)
      obtain ⟨m, hm⟩ : ∃ m, st.names.length = m + 1 :=
        ⟨st.names.length - 1, by omega⟩
      conv_lhs => rw [hm]
      show (match (setParent st.parent b a).lookup x₀ with
        | none => [x₀]
        | some y => x₀ :: chainAux (setParent st.parent b a) m y) =
        x₀ :: (pre' ++ b :: chainAux st.parent st.names.length a)
      rw [lookup_setParent, if_neg hx₀b, hlook]
      show x₀ :: chainAux (setParent st.parent b a) m w =
        x₀ :: (pre' ++ b :: chainAux st.parent st.names.length a)
      rw [chainAux_fuel_change (setParent st.parent b a) st.names.length w
        hroot' m (by rw [hih]; omega)]
      rw [hih]

theorem updated_chain_good (st : VGState) (hinv : VGInv st) (a b : String)
    (ha : a ∈ st.names) (hb : b ∈ st.names)
    (hguard : b ∉ chainAux st.parent st.names.length a)
    (x : String) (hx : x ∈ st.names) (q : List String)
    (hq : chainAux st.parent st.names.length x =
      q ++ chainAux st.parent st.names.length b) :
    (q ++ b :: chainAux st.parent st.names.length a).Nodup ∧
    (∀ y ∈ q ++ b :: chainAux st.parent st.names.length a, y ∈ st.names) ∧
    (setParent st.parent b a).lookup
      ((q ++ b :: chainAux st.parent st.names.length a).getLastD x) = none := by
  have hxnd : (chainAux st.parent st.names.length x).Nodup := (hinv.2.2 x hx).1
  have hxsub := (hinv.2.2 x hx).2.1
  have hand : (chainAux st.parent st.names.length a).Nodup := (hinv.2.2 a ha).1
  have hasub := (hinv.2.2 a ha).2.1
  have har := (hinv.2.2 a ha).2.2
  have hqnd : (q ++ chainAux st.parent st.names.length b).Nodup := by
    rw [← hq]; exact hxnd
  rw [List.nodup_append] at hqnd
  obtain ⟨hqnd', hbnd, hqdisj⟩ := hqnd
  have hbq : b ∉ q := fun hmem => hqdisj hmem (mem_chainAux_self _ _ _)
  refine ⟨?_, ?_, ?_⟩
  · rw [List.nodup_append]
    refine ⟨hqnd', ?_, ?_⟩
    · rw [List.nodup_cons]
      exact ⟨hguard, hand⟩
    · intro y hy hymem
      rcases List.mem_cons.1 hymem with rfl | hya
      · exact hbq hy
      · exact pre_disjoint_chain st hinv a b ha hguard x hx q hq y hy hya
  · intro y hy
    rcases List.mem_append.1 hy with hy | hy
    · exact hxsub y (by rw [hq]; exact List.mem_append_left _ hy)
    · rcases List.mem_cons.1 hy with rfl | hya
      · exact hb
      · exact hasub y hya
  · have hane : chainAux st.parent st.names.length a ≠ [] := chainAux_ne_nil _ _ _
    rw [getLastD_append_ne q _ (by simp) x, List.getLastD_cons,
      getLastD_of_ne_nil _ hane b a]
    have hra : (chainAux st.parent st.names.length a).getLastD a ∈
        chainAux st.parent st.names.length a := by
      rcases getLastD_mem_or' (chainAux st.parent st.names.length a) a with h | h
      · rw [h]; exact mem_chainAux_self _ _ _
      · exact h
    have hrb : ¬ ((chainAux st.parent st.names.length a).getLastD a = b) :=
      fun h => hguard (h ▸ hra)
    rw [lookup_setParent, if_neg hrb]
    exact har

theorem vginv_setParent (st : VGState) (hinv : VGInv st) (a b : String)
    (ha : a ∈ st.names) (hb : b ∈ st.names)
    (hguard : b ∉ chainAux st.parent st.names.length a) :
    VGInv { st with parent := setParent st.parent b a } := by
  obtain ⟨hnd, hpar, hch⟩ := hinv
  refine ⟨hnd, ?_, ?_⟩
  · intro elem helem
    rcases List.mem_cons.1 helem with rfl | helem
    · exact ⟨hb, ha⟩
    · exact hpar elem (List.mem_of_mem_filter helem)
  · intro x hx
    by_cases hbx : b ∈ chainAux st.parent st.names.length x
    · obtain ⟨q, hq⟩ := chain_suffix st ⟨hnd, hpar, hch⟩ x hx b hbx
      have hupd := chain_update_through_b st ⟨hnd, hpar, hch⟩ a b ha hb hguard
        q x hx hq
      obtain ⟨g1, g2, g3⟩ := updated_chain_good st ⟨hnd, hpar, hch⟩ a b ha hb
        hguard x hx q hq
      show (chainAux (setParent st.parent b a) st.names.length x).Nodup ∧ _
      rw [hupd]
      exact ⟨g1, g2, g3⟩
    · show (chainAux (setParent st.parent b a) st.names.length x).Nodup ∧ _
      rw [chainAux_setParent_not_mem st.parent b a st.names.length x hbx]
      obtain ⟨h1, h2, h3⟩ := hch x hx
      refine ⟨h1, h2, ?_⟩
      have hlast : (chainAux st.parent st.names.length x).getLastD x ∈
          chainAux st.parent st.names.length x := by
        rcases getLastD_mem_or' (chainAux st.parent st.names.length x) x with h | h
        · rw [h]; exact mem_chainAux_self _ _ _
        · exact h
      have hlb : ¬ ((chainAux st.parent st.names.length x).getLastD x = b) :=
        fun h => hbx (h ▸ hlast)
      rw [lookup_setParent, if_neg hlb]
      exact h3

theorem lookup_none_of_not_mem (st : VGState) (hinv : VGInv st) (n : String)
    (hn : n ∉ st.names) : st.parent.lookup n = none := by
  rcases h : st.parent.lookup n with _ | y
  · rfl
  · exact absurd ((hinv.2.1 _ (lookup_mem h)).1) hn

theorem vginv_addName (st : VGState) (hinv : VGInv st) (n : String) :
    VGInv (vgAddName st n) ∧ (vgAddName st n).parent = st.parent ∧
      n ∈ (vgAddName st n).names ∧
      ∀ y ∈ st.names, y ∈ (vgAddName st n).names := by
  unfold vgAddName
  split_ifs with hmem
  · exact ⟨hinv, rfl, hmem, fun y hy => hy⟩
  · obtain ⟨hnd, hpar, hch⟩ := hinv
    refine ⟨⟨?_, ?_, ?_⟩, rfl, ?_, ?_⟩
    · rw [List.nodup_append]
      refine ⟨hnd, List.nodup_singleton _, ?_⟩
      intro y hy hyn
      rcases List.mem_singleton.1 hyn with rfl
      exact hmem hy
    · intro q hq
      have := hpar q hq
      exact ⟨List.mem_append_left _ this.1, List.mem_append_left _ this.2⟩
    · intro x hx
      show (chainAux st.parent (st.names ++ [n]).length x).Nodup ∧ _
      rcases List.mem_append.1 hx with hx' | hx'
      · obtain ⟨h1, h2, h3⟩ := hch x hx'
        have hlen := chain_length_le_names st ⟨hnd, hpar, hch⟩ x hx'
        have heq : chainAux st.parent (st.names ++ [n]).length x =
            chainAux st.parent st.names.length x := by
          rw [List.length_append, List.length_cons, List.length_nil]
          exact chainAux_fuel_change st.parent st.names.length x h3
            (st.names.length + 1) (by omega)
        rw [heq]
        exact ⟨h1, fun y hy => List.mem_append_left _ (h2 y hy), h3⟩
      · rcases List.mem_singleton.1 hx' with rfl
        have hlk : st.parent.lookup x = none :=
          lookup_none_of_not_mem st ⟨hnd, hpar, hch⟩ x hmem
        rw [chain_of_lookup_none st.parent x hlk]
        refine ⟨List.nodup_singleton _, ?_, ?_⟩
        · intro y hy
          rcases List.mem_singleton.1 hy with rfl
          exact hx
        · rw [List.getLastD_cons, List.getLastD_nil]
          exact hlk
    · exact List.mem_append_right _ (List.mem_singleton.2 rfl)
    · intro y hy
      exact List.mem_append_left _ hy

theorem vginv_vgStep (st : VGState) (hinv : VGInv st) (link : String × String) :
    VGInv (vgStep st link) := by
  obtain ⟨hinv1, hp1, hm1, hsub1⟩ := vginv_addName st hinv link.1
  obtain ⟨hinv2, hp2, hm2, hsub2⟩ :=
    vginv_addName (vgAddName st link.1) hinv1 link.2
  show VGInv (if link.2 ∈ chainAux (vgAddName (vgAddName st link.1) link.2).parent
      (vgAddName (vgAddName st link.1) link.2).names.length link.1
    then vgAddName (vgAddName st link.1) link.2
    else { vgAddName (vgAddName st link.1) link.2 with
      parent := setParent (vgAddName (vgAddName st link.1) link.2).parent
        link.2 link.1 })
  split_ifs with hcycle
  · exact hinv2
  · have hfrom : link.1 ∈ (vgAddName (vgAddName st link.1) link.2).names :=
      hsub2 _ hm1
    exact vginv_setParent _ hinv2 link.1 link.2 hfrom hm2 hcycle

theorem vginv_foldl (lt : List (String × String)) :
    ∀ (st : VGState), VGInv st → VGInv (lt.foldl vgStep st) := by
  induction lt with
  | nil => intro st h; exact h
  | cons l rest ih =>
    intro st h
    rw [List.foldl_cons]
    exact ih _ (vginv_vgStep st h l)

theorem vginv_init : VGInv { names := [], parent := [] } := by
  refine ⟨List.nodup_nil, ?_, ?_⟩
  · intro q hq; cases hq
  · intro x hx; cases hx

theorem vginv_vgRun (lt : List (String × String)) : VGInv (vgRun lt) :=
  vginv_foldl lt _ vginv_init

theorem mem_childrenOf (st : VGState) (y x : String) :
    y ∈ childrenOf st x ↔ y ∈ st.names ∧ st.parent.lookup y = some x := by
  unfold childrenOf
  rw [List.mem_filter]
  constructor
  · rintro ⟨h1, h2⟩
    exact ⟨h1, by simpa using h2⟩
  · rintro ⟨h1, h2⟩
    exact ⟨h1, by simpa using h2⟩

theorem chain_mem_of_child (st : VGState) (hinv : VGInv st) (n x y : String)
    (hn : n ∈ st.names) (hy : y ∈ chainAux st.parent st.names.length n)
    (hlook : st.parent.lookup y = some x) :
    chainAux st.parent st.names.length y =
      y :: chainAux st.parent st.names.length x ∧
    x ∈ chainAux st.parent st.names.length n := by
  have hyn : y ∈ st.names := (hinv.2.2 n hn).2.1 y hy
  obtain ⟨hnorm, hxn⟩ := chain_norm st hinv y x hyn hlook
  obtain ⟨q, hq⟩ := chain_suffix st hinv n hn y hy
  refine ⟨hnorm, ?_⟩
  rw [hq, hnorm]
  exact List.mem_append_right _
    (List.mem_cons_of_mem _ (mem_chainAux_self _ _ _))

theorem count_flatMap_eq_zero (f : String → List String) (n : String) :
    ∀ l : List String, (∀ y ∈ l, (f y).count n = 0) →
      ((l.flatMap f).count n) = 0 := by
  intro l
  induction l with
  | nil => intro _; rfl
  | cons y rest ih =>
    intro h
    rw [List.flatMap_cons, List.count_append, h y (List.mem_cons_self _ _),
      ih (fun z hz => h z (List.mem_cons_of_mem _ hz))]

theorem count_flatMap_eq_one (f : String → List String) (n y₀ : String) :
    ∀ l : List String, l.Nodup → y₀ ∈ l → (f y₀).count n = 1 →
      (∀ y ∈ l, ¬ (y = y₀) → (f y).count n = 0) →
      ((l.flatMap f).count n) = 1 := by
  intro l
  induction l with
  | nil => intro _ h; cases h
  | cons y rest ih =>
    intro hnd hmem h1 h0
    rw [List.nodup_cons] at hnd
    rw [List.flatMap_cons, List.count_append]
    by_cases hy : y = y₀
    · subst hy
      rw [h1, count_flatMap_eq_zero f n rest (fun z hz =>
        h0 z (List.mem_cons_of_mem _ hz) (fun h => hnd.1 (h ▸ hz)))]
    · rw [h0 y (List.mem_cons_self _ _) hy, Nat.zero_add]
      refine ih hnd.2 ?_ h1 (fun z hz hzy => h0 z (List.mem_cons_of_mem _ hz) hzy)
      rcases List.mem_cons.1 hmem with h | h
      · exact absurd h.symm hy
      · exact h

theorem preorder_count_zero (st : VGState) (hinv : VGInv st) (n : String)
    (hn : n ∈ st.names) :
    ∀ (fuel : Nat) (x : String), x ∈ st.names →
      x ∉ chainAux st.parent st.names.length n →
      ((preorder st fuel x).count n) = 0 := by
  intro fuel
  induction fuel with
  | zero => intro x _ _; rfl
  | succ m ih =>
    intro x hx hxn
    show ((x :: (childrenOf st x).flatMap (preorder st m)).count n) = 0
    have hxne : (x == n) = false := by
      simp only [beq_eq_false_iff_ne, ne_eq]
      intro h
      exact hxn (h ▸ mem_chainAux_self _ _ _)
    rw [List.count_cons, hxne]
    simp only [Bool.false_eq_true, if_false, Nat.add_zero]
    apply count_flatMap_eq_zero
    intro y hy
    obtain ⟨hyname, hylook⟩ := (mem_childrenOf st y x).1 hy
    apply ih y hyname
    intro hymem
    exact hxn (chain_mem_of_child st hinv n x y hn hymem hylook).2

theorem preorder_count_one (st : VGState) (hinv : VGInv st) (n : String)
    (hn : n ∈ st.names) :
    ∀ (fuel : Nat) (q : List String) (x : String), x ∈ st.names →
      chainAux st.parent st.names.length n =
        q ++ chainAux st.parent st.names.length x →
      q.length + 1 ≤ fuel →
      ((preorder st fuel x).count n) = 1 := by
  intro fuel
  induction fuel with
  | zero =>
    intro q x _ _ hlen
    omega
  | succ m ih =>
    intro q x hx hq hlen
    show ((x :: (childrenOf st x).flatMap (preorder st m)).count n) = 1
    have hchnd : (chainAux st.parent st.names.length n).Nodup := (hinv.2.2 n hn).1
    rcases List.eq_nil_or_concat q with rfl | ⟨q', y₀, rfl⟩
    · simp only [List.nil_append] at hq
      have hxn : x = n := by
        obtain ⟨t, htn⟩ := chainAux_head st.parent st.names.length n
        obtain ⟨t', htx⟩ := chainAux_head st.parent st.names.length x
        rw [htn, htx] at hq
        exact ((List.cons.inj hq).1).symm
      have hxbeq : (x == n) = true := by simpa using hxn
      rw [List.count_cons, hxbeq, if_pos rfl]
      have hzero : (((childrenOf st x).flatMap (preorder st m)).count n) = 0 := by
        apply count_flatMap_eq_zero
        intro y hy
        obtain ⟨hyname, hylook⟩ := (mem_childrenOf st y x).1 hy
        apply preorder_count_zero st hinv n hn m y hyname
        intro hymem
        obtain ⟨hch, _⟩ := chain_mem_of_child st hinv n x y hn hymem hylook
        obtain ⟨r, hr⟩ := chain_suffix st hinv n hn y hymem
        rw [hch, ← hq] at hr
        have hlen1 := congrArg List.length hr
        rw [List.length_append, List.length_cons] at hlen1
        omega
      rw [hzero]
    · rw [List.concat_eq_append] at hq hlen
      rw [List.append_assoc, List.singleton_append] at hq
      have hy₀mem : y₀ ∈ chainAux st.parent st.names.length n := by
        rw [hq]
        exact List.mem_append_right _ (List.mem_cons_self _ _)
      have hy₀name : y₀ ∈ st.names := (hinv.2.2 n hn).2.1 y₀ hy₀mem
      obtain ⟨r, hr⟩ := chain_suffix st hinv n hn y₀ hy₀mem
      obtain ⟨t, ht⟩ := chainAux_head st.parent st.names.length y₀
      have hsplit := nodup_split_unique q' r y₀
        (chainAux st.parent st.names.length x) t
        (by rw [← hq]; exact hchnd) (by rw [← hq, hr, ht])
      have hchy₀ : chainAux st.parent st.names.length y₀ =
          y₀ :: chainAux st.parent st.names.length x := by
        rw [ht, hsplit.2]
      have hlooky₀ : st.parent.lookup y₀ = some x := by
        rcases hlk : st.parent.lookup y₀ with _ | w
        · exfalso
          rw [chain_of_lookup_none st.parent y₀ hlk] at hchy₀
          have h2 := (List.cons.inj hchy₀).2
          exact chainAux_ne_nil st.parent st.names.length x h2.symm
        · obtain ⟨hnorm, hwname⟩ := chain_norm st hinv y₀ w hy₀name hlk
          rw [hnorm] at hchy₀
          have hwx := (List.cons.inj hchy₀).2
          obtain ⟨tw, htw⟩ := chainAux_head st.parent st.names.length w
          obtain ⟨tx, htx⟩ := chainAux_head st.parent st.names.length x
          rw [htw, htx] at hwx
          rw [(List.cons.inj hwx).1]
      have hxnen : ¬ (x = n) := by
        intro h
        rw [h] at hq
        have hlen1 := congrArg List.length hq
        rw [List.length_append, List.length_cons] at hlen1
        omega
      have hxbeq : (x == n) = false := by simpa using hxnen
      rw [List.count_cons, hxbeq]
      simp only [Bool.false_eq_true, if_false, Nat.add_zero]
      apply count_flatMap_eq_one (preorder st m) n y₀ (childrenOf st x)
        (hinv.1.filter _)
      · exact (mem_childrenOf st y₀ x).2 ⟨hy₀name, hlooky₀⟩
      · apply ih q' y₀ hy₀name
        · rw [hchy₀]
          exact hq
        · rw [List.length_append, List.length_cons, List.length_nil] at hlen
          omega
      · intro y hy hyne
        obtain ⟨hyname, hylook⟩ := (mem_childrenOf st y x).1 hy
        apply preorder_count_zero st hinv n hn m y hyname
        intro hymem
        apply hyne
        obtain ⟨hchy, _⟩ := chain_mem_of_child st hinv n x y hn hymem hylook
        obtain ⟨r2, hr2⟩ := chain_suffix st hinv n hn y hymem
        rw [hchy] at hr2
        have hlen2 : r2.length = q'.length := by
          have e1 := congrArg List.length hr2
          have e2 := congrArg List.length hq
          rw [List.length_append, List.length_cons] at e1 e2
          omega
        have hinj := List.append_inj (hr2.symm.trans hq) hlen2
        exact (List.cons.inj hinj.2).1

theorem dropLast_append_getLastD {α : Type} :
    ∀ (l : List α), l ≠ [] → ∀ d, l.dropLast ++ [l.getLastD d] = l := by
  intro l
  induction l with
  | nil => intro h; exact absurd rfl h
  | cons a t ih =>
    intro _ d
    match t with
    | [] => rfl
    | b :: t' =>
      rw [List.getLastD_cons]
      show a :: ((b :: t').dropLast ++ [(b :: t').getLastD a]) = a :: b :: t'
      rw [ih (by simp) a]

theorem mem_vgRoots (st : VGState) (r : String) :
    r ∈ vgRoots st ↔ r ∈ st.names ∧ st.parent.lookup r = none := by
  unfold vgRoots
  rw [List.mem_filter]
  simp [Option.isNone_iff_eq_none]

theorem root_of_chain (st : VGState) (hinv : VGInv st) (n : String)
    (hn : n ∈ st.names) :
    (chainAux st.parent st.names.length n).getLastD n ∈ vgRoots st ∧
    chainAux st.parent st.names.length
        ((chainAux st.parent st.names.length n).getLastD n) =
      [(chainAux st.parent st.names.length n).getLastD n] ∧
    chainAux st.parent st.names.length n =
      (chainAux st.parent st.names.length n).dropLast ++
        [(chainAux st.parent st.names.length n).getLastD n] := by
  have hroot := (hinv.2.2 n hn).2.2
  have hsub := (hinv.2.2 n hn).2.1
  have hmem : (chainAux st.parent st.names.length n).getLastD n ∈
      chainAux st.parent st.names.length n := by
    rcases getLastD_mem_or' (chainAux st.parent st.names.length n) n with h | h
    · rw [h]; exact mem_chainAux_self _ _ _
    · exact h
  refine ⟨(mem_vgRoots st _).2 ⟨hsub _ hmem, hroot⟩, ?_, ?_⟩
  · exact chain_of_lookup_none st.parent _ hroot _
  · exact (dropLast_append_getLastD _ (chainAux_ne_nil _ _ _) n).symm

theorem root_unique_in_chain (st : VGState) (hinv : VGInv st) (n : String)
    (hn : n ∈ st.names) (r : String)
    (hr : r ∈ chainAux st.parent st.names.length n)
    (hnone : st.parent.lookup r = none) :
    r = (chainAux st.parent st.names.length n).getLastD n := by
  obtain ⟨q, hq⟩ := chain_suffix st hinv n hn r hr
  rw [hq, chain_of_lookup_none st.parent r hnone, List.getLastD_concat]

theorem vgRender_count (st : VGState) (hinv : VGInv st) (n : String)
    (hn : n ∈ st.names) :
    ((vgRender st).count n) = 1 ∧
    ∃! r, r ∈ vgRoots st ∧ n ∈ preorder st (st.names.length + 1) r := by
  obtain ⟨hrmem, hrchain, hrsplit⟩ := root_of_chain st hinv n hn
  have hrname : (chainAux st.parent st.names.length n).getLastD n ∈ st.names :=
    ((mem_vgRoots st _).1 hrmem).1
  have hlen := chain_length_le_names st hinv n hn
  have hcount1 : ((preorder st (st.names.length + 1)
      ((chainAux st.parent st.names.length n).getLastD n)).count n) = 1 := by
    apply preorder_count_one st hinv n hn (st.names.length + 1)
      (chainAux st.parent st.names.length n).dropLast _ hrname
    · rw [hrchain]
      exact hrsplit
    · have := congrArg List.length hrsplit
      rw [List.length_append, List.length_cons, List.length_nil] at this
      omega
  have hzero : ∀ r ∈ vgRoots st,
      ¬ (r = (chainAux st.parent st.names.length n).getLastD n) →
      ((preorder st (st.names.length + 1) r).count n) = 0 := by
    intro r hrr hne
    obtain ⟨hrn, hrnone⟩ := (mem_vgRoots st r).1 hrr
    apply preorder_count_zero st hinv n hn _ r hrn
    intro hmem
    exact hne (root_unique_in_chain st hinv n hn r hmem hrnone)
  have hrender : ((vgRender st).count n) = 1 := by
    unfold vgRender
    exact count_flatMap_eq_one _ n _ (vgRoots st) (hinv.1.filter _) hrmem
      hcount1 hzero
  refine ⟨hrender, ⟨(chainAux st.parent st.names.length n).getLastD n,
    ⟨hrmem, ?_⟩, ?_⟩⟩
  · exact List.count_pos_iff.1 (by rw [hcount1]; omega)
  · rintro r ⟨hrr, hrmem'⟩
    by_contra hne
    have h0 := hzero r hrr hne
    have := List.count_pos_iff.2 hrmem'
    omega

theorem vgAddName_names_mem (st : VGState) (n x : String) :
    x ∈ (vgAddName st n).names ↔ x ∈ st.names ∨ x = n := by
  unfold vgAddName
  split_ifs with h
  · constructor
    · exact Or.inl
    · rintro (hx | rfl)
      · exact hx
      · exact h
  · show x ∈ st.names ++ [n] ↔ _
    rw [List.mem_append, List.mem_singleton]

theorem vgStep_names_mem (st : VGState) (l : String × String) (x : String) :
    x ∈ (vgStep st l).names ↔ x ∈ st.names ∨ x = l.1 ∨ x = l.2 := by
  have hnames : (vgStep st l).names =
      (vgAddName (vgAddName st l.1) l.2).names := by
    show (if l.2 ∈ chainAux (vgAddName (vgAddName st l.1) l.2).parent
        (vgAddName (vgAddName st l.1) l.2).names.length l.1
      then vgAddName (vgAddName st l.1) l.2
      else { vgAddName (vgAddName st l.1) l.2 with
        parent := setParent (vgAddName (vgAddName st l.1) l.2).parent
          l.2 l.1 }).names = _
    split_ifs <;> rfl
  rw [hnames, vgAddName_names_mem, vgAddName_names_mem]
  tauto

theorem vgRun_names_aux (x : String) :
    ∀ (lt : List (String × String)) (st : VGState),
      x ∈ (lt.foldl vgStep st).names ↔
        x ∈ st.names ∨ ∃ l ∈ lt, x = l.1 ∨ x = l.2 := by
  intro lt
  induction lt with
  | nil =>
    intro st
    simp
  | cons l rest ih =>
    intro st
    rw [List.foldl_cons, ih, vgStep_names_mem]
    constructor
    · rintro ((hx | hx | hx) | ⟨l', hl', hx⟩)
      · exact Or.inl hx
      · exact Or.inr ⟨l, List.mem_cons_self _ _, Or.inl hx⟩
      · exact Or.inr ⟨l, List.mem_cons_self _ _, Or.inr hx⟩
      · exact Or.inr ⟨l', List.mem_cons_of_mem _ hl', hx⟩
    · rintro (hx | ⟨l', hl', hx⟩)
      · exact Or.inl (Or.inl hx)
      · rcases List.mem_cons.1 hl' with rfl | hl''
        · rcases hx with hx | hx
          · exact Or.inl (Or.inr (Or.inl hx))
          · exact Or.inl (Or.inr (Or.inr hx))
        · exact Or.inr ⟨l', hl'', hx⟩

/-- C10: throughout the parent-assignment loop of `visualize_graph_text`
the node structure remains acyclic — an assignment that would close a
cycle raises anytree's `LoopError` and is skipped — so after every
prefix of the links table the state satisfies the rooted-forest
invariant `VGInv` (from every known name the parent walk visits
distinct known names and ends at a parentless root); the procedure
terminates with exactly the names occurring in the links table in its
dictionary; and every such name belongs to exactly one root's rendered
tree and is rendered exactly once. -/
theorem visualize_graph_text_forest (links_table : List (String × String)) :
    (∀ k : Nat, VGInv (vgRun (links_table.take k))) ∧
    (∀ x, x ∈ (vgRun links_table).names ↔
      ∃ l ∈ links_table, x = l.1 ∨ x = l.2) ∧
    ∀ x ∈ (vgRun links_table).names,
      (∃! r, r ∈ vgRoots (vgRun links_table) ∧
        x ∈ preorder (vgRun links_table)
          ((vgRun links_table).names.length + 1) r) ∧
      ((vgRender (vgRun links_table)).count x) = 1 := by
  refine ⟨fun k => vginv_vgRun _, ?_, ?_⟩
  · intro x
    have h := vgRun_names_aux x links_table { names := [], parent := [] }
    unfold vgRun
    rw [h]
    simp
  · intro x hx
    obtain ⟨hcount, huniq⟩ := vgRender_count (vgRun links_table)
      (vginv_vgRun _) x hx
    exact ⟨huniq, hcount⟩
